import Mathlib

/-!
# Verification of Repo-Dumper (`repo_dumper.py`)

The program serialises a directory tree into a single markdown-like
document (`dump_repo`) and reconstructs a tree from such a document
(`restore_repo`).  This file gives a shallow embedding of the program:

* Python `str` values are modelled as lists of characters (`Str`);
  Python `bytes` as lists of naturals.
* The decoder is a line-driven state machine (`processLine` folded over
  the document's lines); the document is split into lines exactly as
  Python's text-mode `readlines` does (universal-newline translation
  followed by splitting after every `'\n'`, terminators kept).
* File-system effects (writing a reconstructed file, printing a
  warning) are modelled as explicit lists of events carried in the
  scanner state.
-/

/-- Python `str` values, modelled as lists of characters. -/
abbrev Str := List Char

/-- Character list of a Lean string literal; used to transcribe the
Python string literals of the source. -/
def chars (s : String) : Str := s.data

/-- The characters Python's `str.strip()` removes: every character `c`
with `c.isspace()` (ASCII whitespace plus the Unicode space and line
separators). -/
def isPySpace (c : Char) : Bool :=
  c.toNat ∈ [0x09, 0x0a, 0x0b, 0x0c, 0x0d, 0x1c, 0x1d, 0x1e, 0x1f, 0x20,
    0x85, 0xa0, 0x1680, 0x2000, 0x2001, 0x2002, 0x2003, 0x2004, 0x2005,
    0x2006, 0x2007, 0x2008, 0x2009, 0x200a, 0x2028, 0x2029, 0x202f, 0x205f,
    0x3000]

/-- Remove trailing Python whitespace (the right half of `str.strip()`). -/
def dropTrail : Str → Str
  | [] => []
  | c :: tl =>
    match dropTrail tl with
    | [] => if isPySpace c then [] else [c]
    | t => c :: t

/-- Python `str.strip()` with no arguments. -/
def pyStrip (s : Str) : Str := dropTrail (s.dropWhile isPySpace)

/-- Python substring containment, `pat in s`. -/
def hasSub (pat : Str) : Str → Bool
  | [] => pat.isEmpty
  | c :: tl => pat.isPrefixOf (c :: tl) || hasSub pat tl

/-- Python `s.replace('\r\n', '\n')` (leftmost, non-overlapping). -/
def replaceCRLF : Str → Str
  | '\r' :: '\n' :: tl => '\n' :: replaceCRLF tl
  | c :: tl => c :: replaceCRLF tl
  | [] => []

/-- The line-ending normalisation
`content.replace('\r\n', '\n').replace('\r', '\n')` used by the encoder;
Python's universal-newline translation, applied when the decoder opens
the document in text mode, performs the same CR/CRLF-to-LF mapping. -/
def normalizeNewlines (s : Str) : Str :=
  (replaceCRLF s).map (fun c => if c = '\r' then '\n' else c)

/-- Split a text into lines, each keeping its trailing `'\n'`
(Python `readlines` on already newline-translated text). -/
def splitLinesKeep : Str → List Str
  | [] => []
  | c :: tl =>
    if c = '\n' then ['\n'] :: splitLinesKeep tl
    else
      match splitLinesKeep tl with
      | [] => [[c]]
      | l :: ls => (c :: l) :: ls

/-- The decoder's view of the document: universal-newline translation,
then `readlines`. -/
def readLines (doc : Str) : List Str := splitLinesKeep (normalizeNewlines doc)

/-- Python `s.endswith('\n')`. -/
def endsNL (s : Str) : Bool := s.getLast? == some '\n'

/-! ## Constants of `repo_dumper.py` -/

def FILE_NAME_MARKER : Str := chars "###### File: "

def TREE_HEADER : Str := chars "### Structure:"

def CONTENT_HEADER : Str := chars "### Contents:"

/-- Twelve backticks. -/
def CODE_BLOCK_MARKER : Str := chars "````````````"

def BINARY_CHUNK_SIZE : Nat := 1024

/-- The payload substituted for binary files. -/
def BINARY_PLACEHOLDER : Str := chars "[Binary file content skipped]"

/-- The substring whose presence makes `restore_repo` reject a path. -/
def DOTDOT : Str := chars ".."

/-! ## The decoder (`restore_repo`) -/

/-- Diagnostics printed by `restore_repo` (warnings only; informational
prints are not modelled). -/
inductive RWarn where
  | emptyPath (lineNo : Nat)
  | unsafePath (path : Str) (lineNo : Nat)
  | endedMidState (st : Nat)
  | incomplete (path : Str)
deriving DecidableEq

/-- The mutable locals of `restore_repo`'s scanning loop, together with
the lists of performed file writes and printed warnings. `writes`
records `(current_file_path, file_content)` pairs; the actual
destination on disk is `output_dir / current_file_path`, modelled by
`pathJoin` below. -/
structure ScanState where
  cur : Option Str        -- current_file_path
  buf : List Str          -- content_buffer
  st : Nat                -- state: 0 marker, 1 fence open, 2 in content
  inside : Bool           -- inside_code_block
  writes : List (Str × Str)
  warns : List RWarn
  lineNum : Nat           -- enumerate counter (0-based index of next line)
deriving DecidableEq

def initState : ScanState := ⟨none, [], 0, false, [], [], 0⟩

/-- `line.strip().startswith(CODE_BLOCK_MARKER)`: the decoder's fence
test, true for every line whose stripped form begins with the twelve
backticks, regardless of what follows them. -/
def isFenceLine (line : Str) : Bool := CODE_BLOCK_MARKER.isPrefixOf (pyStrip line)

/-- `line.startswith(FILE_NAME_MARKER)`. -/
def isMarkerLine (line : Str) : Bool := FILE_NAME_MARKER.isPrefixOf line

/-- One iteration of `restore_repo`'s `for line_num, line in
enumerate(lines)` loop. -/
def processLine (s : ScanState) (line : Str) : ScanState :=
  let s' := { s with lineNum := s.lineNum + 1 }
  if isFenceLine line then
    if s.inside = false then
      -- entering a code block
      { s' with st := if s.st = 1 then 2 else s.st, inside := true }
    else if s.st = 2 then
      -- exiting a file content block: finalize the record
      let s2 :=
        match s.cur with
        | some p =>
          let content := s.buf.flatten
          if pyStrip content = BINARY_PLACEHOLDER then
            s'  -- binary placeholder: no file bytes are written
          else
            { s' with writes := s.writes ++ [(p, content)] }
        | none => s'
      { s2 with cur := none, buf := [], st := 0, inside := false }
    else
      -- exiting the structure block or another inert block
      { s' with inside := false }
  else if s.st = 0 then
    if isMarkerLine line then
      let rel := pyStrip (line.drop FILE_NAME_MARKER.length)
      if rel = [] then
        { s' with warns := s.warns ++ [.emptyPath (s.lineNum + 1)] }
      else if hasSub DOTDOT rel then
        { s' with warns := s.warns ++ [.unsafePath rel (s.lineNum + 1)] }
      else
        { s' with cur := some rel, buf := [], st := 1 }
    else s'
  else if s.st = 2 then
    if s.inside then { s' with buf := s.buf ++ [line] } else s'
  else s'

/-- The scanning loop. -/
def scanLines (lines : List Str) (s : ScanState) : ScanState :=
  lines.foldl processLine s

/-- The two end-of-input checks after `restore_repo`'s loop: a warning
when parsing stopped in an intermediate state, and a warning naming the
possibly incomplete pending file. -/
def finalizeScan (fin : ScanState) : ScanState :=
  let f1 :=
    if fin.st ≠ 0 then { fin with warns := fin.warns ++ [.endedMidState fin.st] }
    else fin
  match f1.cur with
  | some p => { f1 with warns := f1.warns ++ [.incomplete p] }
  | none => f1

/-- `restore_repo`'s whole parsing phase: scan all lines, then emit the
end-of-input warnings. -/
def restore_repo (doc : Str) : ScanState :=
  finalizeScan (scanLines (readLines doc) initState)

/-- `output_dir / Path(rel)` for POSIX paths: an absolute second operand
discards the first. -/
def pathJoin (root rel : Str) : Str :=
  if ['/'].isPrefixOf rel then rel else root ++ '/' :: rel

/-! ## Path helpers -/

/-- `Path.parts` of a clean, relative, slash-separated path. -/
def pathParts (p : Str) : List Str := p.splitOn '/'

/-- `Path.name`: the final path component (characters after the last
slash). -/
def basenameOf (p : Str) : Str := (p.reverse.takeWhile (fun c => c ≠ '/')).reverse

/-- `Path.suffix`: the extension of the final component, dot included;
empty for names without an interior dot. -/
def pySuffix (p : Str) : Str :=
  let nm := basenameOf p
  match nm.reverse.findIdx? (fun c => c = '.') with
  | none => []
  | some rj =>
    let i := nm.length - 1 - rj
    if 0 < i ∧ i < nm.length - 1 then nm.drop i else []

/-- `extension[1:] if extension else ''` — the opening fence's language
hint. -/
def langHint (p : Str) : Str := (pySuffix p).drop 1

/-! ## The tree builder (`build_tree`) -/

/-- A value of the nested dictionary built by `build_tree`: `None`
(a file) or a sub-dictionary.  A dictionary is an insertion-ordered
association list. -/
inductive Entry where
  | file
  | dir (children : List (Str × Entry))

instance : Inhabited Entry := ⟨Entry.file⟩

/-- Diagnostics printed by `build_tree`. -/
inductive TreeDiag where
  | fileConflictsDir (part : Str)   -- file entry dropped: name already a directory
  | dirOverwritesFile (part : Str)  -- file entry overwritten by a directory
deriving DecidableEq

/-- Python dict assignment `d[k] = v`: an existing key keeps its
insertion position; a new key is appended. -/
def assignE : List (Str × Entry) → Str → Entry → List (Str × Entry)
  | [], k, v => [(k, v)]
  | (k', v') :: tl, k, v =>
    if k' = k then (k', v) :: tl else (k', v') :: assignE tl k v

/-- One iteration of `build_tree`'s insertion loop: walk `parts` through
the nested dictionary.  The source's final `else: ... break` branch is
unreachable (the preceding lines always make `current_level[part]` a
dictionary), so it has no counterpart here. -/
def insertParts (lvl : List (Str × Entry)) : List Str → List (Str × Entry) × List TreeDiag
  | [] => (lvl, [])
  | [part] =>
    match List.lookup part lvl with
    | some (.dir _) => (lvl, [.fileConflictsDir part])
    | _ => (assignE lvl part .file, [])
  | part :: rest =>
    match List.lookup part lvl with
    | none =>
      let r := insertParts [] rest
      (lvl ++ [(part, .dir r.1)], r.2)
    | some .file =>
      let r := insertParts [] rest
      (assignE lvl part (.dir r.1), .dirOverwritesFile part :: r.2)
    | some (.dir ch) =>
      let r := insertParts ch rest
      (assignE lvl part (.dir r.1), r.2)

/-- `build_tree`: insert every path (as its `Path.parts`), collecting
the printed diagnostics. -/
def build_tree (files : List (List Str)) : List (Str × Entry) × List TreeDiag :=
  files.foldl
    (fun acc parts =>
      let r := insertParts acc.1 parts
      (r.1, acc.2 ++ r.2))
    ([], [])

/-! ## Tree rendering (`print_tree`) -/

def Entry.isDir : Entry → Bool
  | .file => false
  | .dir _ => true

/-- `print_tree`'s sort key comparison
`(isinstance(item[1], dict), item[0])`: files before directories, then
by name. -/
def entryLE (a b : Str × Entry) : Bool :=
  if a.2.isDir = b.2.isDir then decide (a.1 ≤ b.1) else b.2.isDir

def insortEntry (x : Str × Entry) : List (Str × Entry) → List (Str × Entry)
  | [] => [x]
  | y :: tl => if entryLE x y then x :: y :: tl else y :: insortEntry x tl

/-- Python `sorted(tree.items(), key=...)` (keys at one level are
distinct, so any correct comparison sort produces this list). -/
def sortEntries : List (Str × Entry) → List (Str × Entry)
  | [] => []
  | x :: tl => insortEntry x (sortEntries tl)

mutual
/-- Recursively sort every level of the tree.  The source sorts each
level lazily on entry to `print_tree`; sorting all levels up front and
rendering without further sorting traverses the identical sequence. -/
def Entry.sortAll : Entry → Entry
  | .file => .file
  | .dir ch => .dir (sortEntries (sortAllChildren ch))

def sortAllChildren : List (Str × Entry) → List (Str × Entry)
  | [] => []
  | (n, e) :: tl => (n, e.sortAll) :: sortAllChildren tl
end

def sortTree (t : List (Str × Entry)) : List (Str × Entry) :=
  sortEntries (sortAllChildren t)

def connectorStr (last : Bool) : Str := if last then chars "└── " else chars "├── "

/-- The rendering loop of `print_tree` over an (already sorted) level:
one line per entry, directories recursing with an extended prefix. -/
def renderEntries (pre : Str) : List (Str × Entry) → List Str
  | [] => []
  | (n, e) :: tl =>
    (match e with
      | .file => [pre ++ connectorStr tl.isEmpty ++ n]
      | .dir ch =>
        (pre ++ connectorStr tl.isEmpty ++ n ++ ['/']) ::
          renderEntries (pre ++ (if tl.isEmpty then chars "    " else chars "│   ")) ch)
    ++ renderEntries pre tl

/-- `print_tree`. -/
def print_tree (tree : List (Str × Entry)) (pre : Str) : List Str :=
  renderEntries pre (sortTree tree)

/-! ## The encoder (`dump_repo`) -/

/-- Result of `full_path.read_text(encoding='utf-8', errors='ignore')`:
the decoded text, or an exception message that is interpolated into the
inline error payload. -/
abbrev ReadResult := Except Str Str

/-- The payload the encoder emits between the fences of one text file:
the LF-normalised content, with a final newline appended when the
nonempty content lacks one; a read error is substituted inline
(`"Error reading file: {e}\n"`). -/
def text_payload (r : ReadResult) : Str :=
  match r with
  | .ok content =>
    let c := normalizeNewlines content
    c ++ (if c ≠ [] ∧ ¬ endsNL c then ['\n'] else [])
  | .error e => chars "Error reading file: " ++ e ++ ['\n']

/-- One text-file content block: marker line, opening fence with
language hint, payload, closing fence, blank separator line. -/
def text_record (p : Str) (r : ReadResult) : Str :=
  FILE_NAME_MARKER ++ p ++ '\n' ::
  (CODE_BLOCK_MARKER ++ langHint p ++ '\n' ::
  (text_payload r ++ CODE_BLOCK_MARKER ++ chars "\n\n"))

/-- One binary-file content block: the fixed placeholder replaces the
file's bytes. -/
def binary_record (p : Str) : Str :=
  FILE_NAME_MARKER ++ p ++ '\n' ::
  (CODE_BLOCK_MARKER ++ langHint p ++ '\n' ::
  (BINARY_PLACEHOLDER ++ '\n' ::
  (CODE_BLOCK_MARKER ++ chars "\n\n")))

/-- One file handed to `dump_repo` (already selected by `list_files`):
its repo-relative slash-separated path, its `is_binary` classification,
and the outcome of reading it as text. -/
structure SrcFile where
  path : Str
  isBin : Bool
  read : ReadResult

/-- The document `dump_repo` writes: title, structure section (tree
over all files), contents section with every text record first and
every binary record last. -/
def dump_repo (repoName : Str) (files : List SrcFile) : Str :=
  let text_files := files.filter (fun f => !f.isBin)
  let binary_files := files.filter (fun f => f.isBin)
  let tree := (build_tree (files.map (fun f => pathParts f.path))).1
  chars "# Repository: " ++ repoName ++ chars "\n\n" ++
  (TREE_HEADER ++ '\n' ::
  (CODE_BLOCK_MARKER ++ '\n' ::
  ('/' :: repoName ++ chars "/\n" ++
  (List.intercalate ['\n'] (print_tree tree (chars "    ")) ++
  ('\n' :: CODE_BLOCK_MARKER ++ chars "\n\n" ++
  (CONTENT_HEADER ++ chars "\n\n" ++
  ((text_files.map (fun f => text_record f.path f.read)).flatten ++
  (binary_files.map (fun f => binary_record f.path)).flatten)))))))

/-! ## The binary classifier (`is_binary`) -/

/-- A file as seen by `is_binary`: its raw bytes and whether opening and
reading it succeeds. -/
structure BinCheckFile where
  bytes : List Nat
  readable : Bool

/-- `is_binary`: read at most `BINARY_CHUNK_SIZE` bytes and look for a
null byte; on a read error print a warning and report `False`.
Returns `(classification, warned)`. -/
def is_binary (f : BinCheckFile) : Bool × Bool :=
  if f.readable then
    ((f.bytes.take BINARY_CHUNK_SIZE).contains 0, false)
  else
    (false, true)

/-! ## The file lister (`list_files`) -/

/-- The pattern-matching collaborators of `list_files`: the compiled
include/exclude specs and the optional `.gitignore` spec, each an
abstract `match_file(relative_path)` predicate (pathspec is an external
library). -/
structure FilterCtx where
  includeSpec : Str → Bool
  excludeSpec : Str → Bool
  gitignoreSpec : Option (Str → Bool)

/-- One item of the `rglob` traversal: its repo-relative
slash-separated path, whether it is a regular file, and whether it
resolves to the output document being written. -/
structure FsItem where
  relPath : Str
  isFile : Bool
  isOutputFile : Bool

/-- The per-item acceptance test of `list_files`, with the checks in
source order: the output file, non-files, paths with a `.git` segment
and explicitly excluded paths are dropped; explicitly included paths
are kept (overriding `.gitignore`); `.gitignore` matches are dropped;
everything else is kept. -/
def keepsItem (ctx : FilterCtx) (it : FsItem) : Bool :=
  if it.isOutputFile then false
  else if !it.isFile then false
  else if (pathParts it.relPath).contains (chars ".git") then false
  else if ctx.excludeSpec it.relPath then false
  else if ctx.includeSpec it.relPath then true
  else if (match ctx.gitignoreSpec with
           | some g => g it.relPath
           | none => false) then false
  else true

/-- The order `sorted` uses on `Path` objects: `PurePath.__lt__`
compares `self._cparts < other._cparts`, the lexicographic comparison
of the parts tuples with each component compared as a string.  On the
relative slash-separated paths of the traversal the parts tuple is
`pathParts`. -/
def pathPartsLE (p q : Str) : Prop := pathParts p ≤ pathParts q

instance : DecidableRel pathPartsLE :=
  fun p q => inferInstanceAs (Decidable (pathParts p ≤ pathParts q))

instance : IsTotal Str pathPartsLE :=
  ⟨fun a b => le_total (pathParts a) (pathParts b)⟩

instance : IsTrans Str pathPartsLE :=
  ⟨fun _ _ _ hab hbc => le_trans hab hbc⟩

/-- `list_files`: filter the traversal, then `sorted(list(set(...)))` —
deduplicate and sort by the `Path` order (parts-tuple comparison). -/
def list_files (ctx : FilterCtx) (items : List FsItem) : List Str :=
  List.insertionSort pathPartsLE ((items.filter (keepsItem ctx)).map FsItem.relPath).dedup

/-! ## Basic lemmas about the string primitives -/

theorem dropTrail_cons_head (c : Char) (l : Str) (hc : isPySpace c = false) :
    ∃ t, dropTrail (c :: l) = c :: t := by
  cases h : dropTrail l with
  | nil => exact ⟨[], by simp [dropTrail, h, hc]⟩
  | cons a t => exact ⟨a :: t, by simp [dropTrail, h]⟩

theorem pyStrip_cons_head (c : Char) (l : Str) (hc : isPySpace c = false) :
    ∃ t, pyStrip (c :: l) = c :: t := by
  unfold pyStrip
  rw [List.dropWhile_cons]
  simp only [hc, Bool.false_eq_true, if_false]
  exact dropTrail_cons_head c l hc

theorem isPrefixOf_false_of_head_ne (a b : Char) (pa la : Str) (h : (a == b) = false) :
    (a :: pa).isPrefixOf (b :: la) = false := by
  show (a == b && pa.isPrefixOf la) = false
  simp [h]

theorem marker_head (l : Str) (h : isMarkerLine l = true) :
    ∃ t, l = '#' :: t := by
  unfold isMarkerLine at h
  cases l with
  | nil => simp [FILE_NAME_MARKER, chars, List.isPrefixOf] at h
  | cons a t =>
    rw [show FILE_NAME_MARKER = '#' :: chars "##### File: " from rfl] at h
    have ha : ('#' == a) = true := by
      have h' : ('#' == a && (chars "##### File: ").isPrefixOf t) = true := h
      exact (Bool.and_eq_true _ _).mp h' |>.1
    exact ⟨t, by rw [eq_of_beq ha]⟩

/-- A marker line is never taken for a fence line: it starts with a
hash, and the fence test looks for a leading backtick. -/
theorem not_fence_of_marker (l : Str) (h : isMarkerLine l = true) :
    isFenceLine l = false := by
  obtain ⟨t, rfl⟩ := marker_head l h
  obtain ⟨t', ht'⟩ := pyStrip_cons_head '#' t (by decide)
  unfold isFenceLine
  rw [ht', show CODE_BLOCK_MARKER = '`' :: chars "```````````" from rfl]
  exact isPrefixOf_false_of_head_ne _ _ _ _ (by decide)

/-! ## Claim C4 -/

/-- Claim C4: `is_binary` depends only on the first `BINARY_CHUNK_SIZE`
(1024) bytes of the file; for a readable file it reports binary exactly
when that prefix contains a zero byte (and does not warn); for a file
whose read fails it reports text (fail-open) and warns. -/
theorem c4_is_binary_prefix_classification :
    (∀ f g : BinCheckFile, f.readable = g.readable →
        f.bytes.take BINARY_CHUNK_SIZE = g.bytes.take BINARY_CHUNK_SIZE →
        is_binary f = is_binary g) ∧
    (∀ f : BinCheckFile, f.readable = true →
        ((is_binary f).1 = true ↔ 0 ∈ f.bytes.take BINARY_CHUNK_SIZE) ∧
        (is_binary f).2 = false) ∧
    (∀ f : BinCheckFile, f.readable = false → is_binary f = (false, true)) := by
  refine ⟨fun f g h1 h2 => ?_, fun f h => ?_, fun f h => ?_⟩
  · simp only [is_binary, h1, h2]
  · refine ⟨?_, by simp [is_binary, h]⟩
    simp only [is_binary, h, if_true]
    exact List.elem_iff
  · simp [is_binary, h]

/-- Witness for C4 at concrete files: a readable file with a null byte
in its prefix is binary; an unreadable file is text with a warning. -/
theorem c4_witness :
    (is_binary ⟨[1, 0, 2], true⟩).1 = true ∧ is_binary ⟨[1], false⟩ = (false, true) :=
  ⟨((c4_is_binary_prefix_classification.2.1 ⟨[1, 0, 2], true⟩ rfl).1).mpr (by decide),
   c4_is_binary_prefix_classification.2.2 ⟨[1], false⟩ rfl⟩

/-! ## Claim C5 -/

/-- Claim C5: `list_files` applies its resolution rules in order —
output file excluded; `.git` segment excluded; exclude pattern
excluded; include pattern included (even when an ignore pattern also
matches); ignore pattern excluded; otherwise included. -/
theorem c5_filter_resolution_order (ctx : FilterCtx) (it : FsItem) :
    (it.isOutputFile = true → keepsItem ctx it = false) ∧
    (it.isOutputFile = false → it.isFile = true →
      (pathParts it.relPath).contains (chars ".git") = true →
      keepsItem ctx it = false) ∧
    (it.isOutputFile = false → it.isFile = true →
      (pathParts it.relPath).contains (chars ".git") = false →
      ctx.excludeSpec it.relPath = true → keepsItem ctx it = false) ∧
    (it.isOutputFile = false → it.isFile = true →
      (pathParts it.relPath).contains (chars ".git") = false →
      ctx.excludeSpec it.relPath = false → ctx.includeSpec it.relPath = true →
      keepsItem ctx it = true) ∧
    (∀ g, it.isOutputFile = false → it.isFile = true →
      (pathParts it.relPath).contains (chars ".git") = false →
      ctx.excludeSpec it.relPath = false → ctx.includeSpec it.relPath = false →
      ctx.gitignoreSpec = some g → g it.relPath = true →
      keepsItem ctx it = false) ∧
    (it.isOutputFile = false → it.isFile = true →
      (pathParts it.relPath).contains (chars ".git") = false →
      ctx.excludeSpec it.relPath = false →
      (match ctx.gitignoreSpec with
        | some g => g it.relPath
        | none => false) = false →
      keepsItem ctx it = true) := by
  refine ⟨fun h1 => by simp [keepsItem, h1], fun h1 h2 h3 => ?_, fun h1 h2 h3 h4 => ?_,
    fun h1 h2 h3 h4 h5 => ?_, fun g h1 h2 h3 h4 h5 h6 h7 => ?_,
    fun h1 h2 h3 h4 h5 => ?_⟩
  · simp only [keepsItem, h1, h2, h3]
    simp
  · simp only [keepsItem, h1, h2, h3, h4]
    simp
  · simp only [keepsItem, h1, h2, h3, h4, h5]
    simp
  · simp only [keepsItem, h1, h2, h3, h4, h5, h6]
    simp [h7]
  · by_cases hi : ctx.includeSpec it.relPath = true
    · simp only [keepsItem, h1, h2, h3, h4, hi]
      simp
    · simp only [keepsItem, h1, h2, h3, h4, eq_false_of_ne_true hi, h5]
      simp

/-- Witness for C5 at a concrete item: a path matched by both the
include spec and the gitignore spec is kept. -/
theorem c5_witness :
    keepsItem ⟨fun p => p == chars "a.txt", fun _ => false, some (fun _ => true)⟩
      ⟨chars "a.txt", true, false⟩ = true :=
  (c5_filter_resolution_order
      ⟨fun p => p == chars "a.txt", fun _ => false, some (fun _ => true)⟩
      ⟨chars "a.txt", true, false⟩).2.2.2.1 rfl rfl (by decide) rfl (by decide)

/-! ## Claim C10 -/

/-- Claim C10: every line whose stripped form starts with the fence
token — not only an exact fence-plus-language-hint line — toggles the
fence flag; consequently a payload line beginning with the fence token
closes its content block there, the truncated payload is written, and
the rest of the payload falls outside the block. -/
theorem c10_fence_toggle_early_close :
    (∀ (s : ScanState) (l : Str), isFenceLine l = true →
      (processLine s l).inside = !s.inside) ∧
    (scanLines
      [FILE_NAME_MARKER ++ chars "a.txt\n",
       CODE_BLOCK_MARKER ++ chars "txt\n",
       chars "x\n",
       CODE_BLOCK_MARKER ++ chars " not just a language hint\n",
       chars "rest of payload\n",
       CODE_BLOCK_MARKER ++ ['\n']]
      initState).writes = [(chars "a.txt", chars "x\n")] := by
  constructor
  · intro s l hf
    cases hin : s.inside with
    | false => simp [processLine, hf, hin]
    | true =>
      by_cases hst : s.st = 2
      · cases hcur : s.cur with
        | none => simp [processLine, hf, hin, hst, hcur]
        | some p =>
          by_cases hb : pyStrip s.buf.flatten = BINARY_PLACEHOLDER <;>
            simp [processLine, hf, hin, hst, hcur, hb]
      · simp [processLine, hf, hin, hst]
  · rfl

/-- Witness for C10: a fence line carrying trailing text still flips
the flag. -/
theorem c10_witness :
    (processLine initState (CODE_BLOCK_MARKER ++ chars "py extra\n")).inside = true := by
  have h := c10_fence_toggle_early_close.1 initState
    (CODE_BLOCK_MARKER ++ chars "py extra\n") (by decide)
  simpa [initState] using h

/-! ## Step lemmas: the exact result of `processLine` in each branch -/

theorem processLine_fence_open (s : ScanState) (l : Str)
    (hf : isFenceLine l = true) (hin : s.inside = false) :
    processLine s l =
      { s with st := if s.st = 1 then 2 else s.st, inside := true,
               lineNum := s.lineNum + 1 } := by
  simp [processLine, hf, hin]

theorem processLine_fence_close_write (s : ScanState) (l p : Str)
    (hf : isFenceLine l = true) (hin : s.inside = true) (hst : s.st = 2)
    (hcur : s.cur = some p) (hb : pyStrip s.buf.flatten ≠ BINARY_PLACEHOLDER) :
    processLine s l =
      { s with writes := s.writes ++ [(p, s.buf.flatten)], cur := none, buf := [],
               st := 0, inside := false, lineNum := s.lineNum + 1 } := by
  simp [processLine, hf, hin, hst, hcur, hb]

theorem processLine_fence_close_binary (s : ScanState) (l p : Str)
    (hf : isFenceLine l = true) (hin : s.inside = true) (hst : s.st = 2)
    (hcur : s.cur = some p) (hb : pyStrip s.buf.flatten = BINARY_PLACEHOLDER) :
    processLine s l =
      { s with cur := none, buf := [], st := 0, inside := false,
               lineNum := s.lineNum + 1 } := by
  simp [processLine, hf, hin, hst, hcur, hb]

theorem processLine_fence_close_nocur (s : ScanState) (l : Str)
    (hf : isFenceLine l = true) (hin : s.inside = true) (hst : s.st = 2)
    (hcur : s.cur = none) :
    processLine s l =
      { s with cur := none, buf := [], st := 0, inside := false,
               lineNum := s.lineNum + 1 } := by
  simp [processLine, hf, hin, hst, hcur]

theorem processLine_fence_close_other (s : ScanState) (l : Str)
    (hf : isFenceLine l = true) (hin : s.inside = true) (hst : s.st ≠ 2) :
    processLine s l = { s with inside := false, lineNum := s.lineNum + 1 } := by
  simp [processLine, hf, hin, hst]

theorem processLine_marker_set (s : ScanState) (l : Str)
    (hf : isFenceLine l = false) (hst : s.st = 0) (hm : isMarkerLine l = true)
    (he : pyStrip (l.drop FILE_NAME_MARKER.length) ≠ [])
    (hd : hasSub DOTDOT (pyStrip (l.drop FILE_NAME_MARKER.length)) = false) :
    processLine s l =
      { s with cur := some (pyStrip (l.drop FILE_NAME_MARKER.length)), buf := [],
               st := 1, lineNum := s.lineNum + 1 } := by
  simp [processLine, hf, hst, hm, he, hd]

theorem processLine_marker_empty (s : ScanState) (l : Str)
    (hf : isFenceLine l = false) (hst : s.st = 0) (hm : isMarkerLine l = true)
    (he : pyStrip (l.drop FILE_NAME_MARKER.length) = []) :
    processLine s l =
      { s with warns := s.warns ++ [.emptyPath (s.lineNum + 1)],
               lineNum := s.lineNum + 1 } := by
  simp [processLine, hf, hst, hm, he]

theorem processLine_marker_dotdot (s : ScanState) (l : Str)
    (hf : isFenceLine l = false) (hst : s.st = 0) (hm : isMarkerLine l = true)
    (he : pyStrip (l.drop FILE_NAME_MARKER.length) ≠ [])
    (hd : hasSub DOTDOT (pyStrip (l.drop FILE_NAME_MARKER.length)) = true) :
    processLine s l =
      { s with warns := s.warns ++
                 [.unsafePath (pyStrip (l.drop FILE_NAME_MARKER.length)) (s.lineNum + 1)],
               lineNum := s.lineNum + 1 } := by
  simp [processLine, hf, hst, hm, he, hd]

theorem processLine_inert0 (s : ScanState) (l : Str)
    (hf : isFenceLine l = false) (hst : s.st = 0) (hm : isMarkerLine l = false) :
    processLine s l = { s with lineNum := s.lineNum + 1 } := by
  simp [processLine, hf, hst, hm]

theorem processLine_state1 (s : ScanState) (l : Str)
    (hf : isFenceLine l = false) (hst : s.st = 1) :
    processLine s l = { s with lineNum := s.lineNum + 1 } := by
  simp [processLine, hf, hst]

theorem processLine_content (s : ScanState) (l : Str)
    (hf : isFenceLine l = false) (hst : s.st = 2) (hin : s.inside = true) :
    processLine s l = { s with buf := s.buf ++ [l], lineNum := s.lineNum + 1 } := by
  simp [processLine, hf, hst, hin]

theorem processLine_content_outside (s : ScanState) (l : Str)
    (hf : isFenceLine l = false) (hst : s.st = 2) (hin : s.inside = false) :
    processLine s l = { s with lineNum := s.lineNum + 1 } := by
  simp [processLine, hf, hst, hin]

theorem processLine_other_state (s : ScanState) (l : Str)
    (hf : isFenceLine l = false) (h0 : s.st ≠ 0) (h2 : s.st ≠ 2) :
    processLine s l = { s with lineNum := s.lineNum + 1 } := by
  simp [processLine, hf, h0, h2]

/-! ## Scanner invariants -/

/-- Each scanning step either leaves the write log unchanged or appends
exactly one write, whose path is the pending `current_file_path` and
whose content is the joined buffer. -/
theorem processLine_writes_cases (s : ScanState) (l : Str) :
    (processLine s l).writes = s.writes ∨
    (∃ p, s.cur = some p ∧
      (processLine s l).writes = s.writes ++ [(p, s.buf.flatten)]) := by
  by_cases hf : isFenceLine l = true
  · by_cases hin : s.inside = true
    · by_cases hst : s.st = 2
      · cases hcu : s.cur with
        | none => rw [processLine_fence_close_nocur s l hf hin hst hcu]; left; rfl
        | some p =>
          by_cases hb : pyStrip s.buf.flatten = BINARY_PLACEHOLDER
          · rw [processLine_fence_close_binary s l p hf hin hst hcu hb]; left; rfl
          · rw [processLine_fence_close_write s l p hf hin hst hcu hb]
            right; exact ⟨p, rfl, rfl⟩
      · rw [processLine_fence_close_other s l hf hin hst]; left; rfl
    · rw [processLine_fence_open s l hf (eq_false_of_ne_true hin)]; left; rfl
  · have hf' : isFenceLine l = false := eq_false_of_ne_true hf
    by_cases hst0 : s.st = 0
    · by_cases hm : isMarkerLine l = true
      · by_cases he : pyStrip (l.drop FILE_NAME_MARKER.length) = []
        · rw [processLine_marker_empty s l hf' hst0 hm he]; left; rfl
        · by_cases hd : hasSub DOTDOT (pyStrip (l.drop FILE_NAME_MARKER.length)) = true
          · rw [processLine_marker_dotdot s l hf' hst0 hm he hd]; left; rfl
          · rw [processLine_marker_set s l hf' hst0 hm he (eq_false_of_ne_true hd)]
            left; rfl
      · rw [processLine_inert0 s l hf' hst0 (eq_false_of_ne_true hm)]; left; rfl
    · by_cases hst2 : s.st = 2
      · by_cases hin : s.inside = true
        · rw [processLine_content s l hf' hst2 hin]; left; rfl
        · rw [processLine_content_outside s l hf' hst2 (eq_false_of_ne_true hin)]
          left; rfl
      · rw [processLine_other_state s l hf' hst0 hst2]; left; rfl

/-- Scanning any further lines only appends to the write log. -/
theorem scanLines_writes_mono (ls : List Str) (s : ScanState) :
    ∃ e, (scanLines ls s).writes = s.writes ++ e := by
  induction ls generalizing s with
  | nil => exact ⟨[], by simp [scanLines]⟩
  | cons l tl ih =>
    obtain ⟨e, he⟩ := ih (processLine s l)
    have hstep : scanLines (l :: tl) s = scanLines tl (processLine s l) := rfl
    rcases processLine_writes_cases s l with h | ⟨p, _, h⟩
    · exact ⟨e, by rw [hstep, he, h]⟩
    · exact ⟨(p, s.buf.flatten) :: e, by rw [hstep, he, h, List.append_assoc]; rfl⟩

/-- The safety invariant of the scanner: the pending path and every
written path are free of the `..` substring, and a nonzero machine
state always has a pending path. -/
def ScanInv (s : ScanState) : Prop :=
  (∀ p, s.cur = some p → hasSub DOTDOT p = false) ∧
  (∀ pc ∈ s.writes, hasSub DOTDOT pc.1 = false) ∧
  (s.st ≠ 0 → s.cur ≠ none)

theorem scanInv_processLine (s : ScanState) (l : Str) (h : ScanInv s) :
    ScanInv (processLine s l) := by
  obtain ⟨hcur, hw, hsc⟩ := h
  unfold ScanInv
  by_cases hf : isFenceLine l = true
  · by_cases hin : s.inside = true
    · by_cases hst : s.st = 2
      · cases hcu : s.cur with
        | none =>
          rw [processLine_fence_close_nocur s l hf hin hst hcu]
          exact ⟨(fun p hp => nomatch hp), hw, fun h' => absurd rfl h'⟩
        | some p =>
          by_cases hb : pyStrip s.buf.flatten = BINARY_PLACEHOLDER
          · rw [processLine_fence_close_binary s l p hf hin hst hcu hb]
            exact ⟨(fun q hq => nomatch hq), hw, fun h' => absurd rfl h'⟩
          · rw [processLine_fence_close_write s l p hf hin hst hcu hb]
            refine ⟨(fun q hq => nomatch hq), ?_, fun h' => absurd rfl h'⟩
            intro pc hpc
            rcases List.mem_append.mp hpc with h' | h'
            · exact hw pc h'
            · rcases List.mem_singleton.mp h' with rfl
              exact hcur p hcu
      · rw [processLine_fence_close_other s l hf hin hst]
        exact ⟨hcur, hw, hsc⟩
    · rw [processLine_fence_open s l hf (eq_false_of_ne_true hin)]
      refine ⟨hcur, hw, ?_⟩
      by_cases h1 : s.st = 1
      · intro _
        exact hsc (by rw [h1]; exact one_ne_zero)
      · simp only [h1, if_false]
        exact hsc
  · have hf' : isFenceLine l = false := eq_false_of_ne_true hf
    by_cases hst0 : s.st = 0
    · by_cases hm : isMarkerLine l = true
      · by_cases he : pyStrip (l.drop FILE_NAME_MARKER.length) = []
        · rw [processLine_marker_empty s l hf' hst0 hm he]
          exact ⟨hcur, hw, hsc⟩
        · by_cases hd : hasSub DOTDOT (pyStrip (l.drop FILE_NAME_MARKER.length)) = true
          · rw [processLine_marker_dotdot s l hf' hst0 hm he hd]
            exact ⟨hcur, hw, hsc⟩
          · rw [processLine_marker_set s l hf' hst0 hm he (eq_false_of_ne_true hd)]
            refine ⟨fun q hq => ?_, hw, fun _ h' => nomatch h'⟩
            cases hq
            exact eq_false_of_ne_true hd
      · rw [processLine_inert0 s l hf' hst0 (eq_false_of_ne_true hm)]
        exact ⟨hcur, hw, hsc⟩
    · by_cases hst2 : s.st = 2
      · by_cases hin : s.inside = true
        · rw [processLine_content s l hf' hst2 hin]
          exact ⟨hcur, hw, hsc⟩
        · rw [processLine_content_outside s l hf' hst2 (eq_false_of_ne_true hin)]
          exact ⟨hcur, hw, hsc⟩
      · rw [processLine_other_state s l hf' hst0 hst2]
        exact ⟨hcur, hw, hsc⟩

theorem scanInv_scanLines (ls : List Str) (s : ScanState) (h : ScanInv s) :
    ScanInv (scanLines ls s) := by
  induction ls generalizing s with
  | nil => exact h
  | cons l tl ih => exact ih (processLine s l) (scanInv_processLine s l h)

theorem scanInv_init : ScanInv initState := by
  unfold ScanInv
  exact ⟨(fun p hp => nomatch hp), (fun pc hpc => nomatch hpc), fun h' => absurd rfl h'⟩

/-! ## Claim C2 -/

/-- Claim C2 (amended): when a content block closes, no file bytes are
written exactly when the accumulated payload, stripped of leading and
trailing whitespace, equals the binary placeholder string; every
payload that does not strip to the placeholder is recorded verbatim,
with no content transformation, for the pending path (whose destination
on disk is `output_dir / pending`, `pathJoin`); the scanner then
returns to the marker-seeking state with no pending path. -/
theorem c2_finalization_placeholder (s : ScanState) (l p : Str)
    (hf : isFenceLine l = true) (hin : s.inside = true) (hst : s.st = 2)
    (hcur : s.cur = some p) :
    ((processLine s l).writes = s.writes ↔
      pyStrip s.buf.flatten = BINARY_PLACEHOLDER) ∧
    (pyStrip s.buf.flatten ≠ BINARY_PLACEHOLDER →
      (processLine s l).writes = s.writes ++ [(p, s.buf.flatten)]) ∧
    (processLine s l).st = 0 ∧ (processLine s l).cur = none := by
  by_cases hb : pyStrip s.buf.flatten = BINARY_PLACEHOLDER
  · rw [processLine_fence_close_binary s l p hf hin hst hcur hb]
    exact ⟨⟨fun _ => hb, fun _ => rfl⟩, (fun h' => absurd hb h'), rfl, rfl⟩
  · rw [processLine_fence_close_write s l p hf hin hst hcur hb]
    exact ⟨⟨fun he => absurd he (by simp), fun h' => absurd h' hb⟩,
      (fun _ => rfl), rfl, rfl⟩

/-- Counterexample to C2 as stated: a payload that is NOT exactly the
placeholder plus its terminator (it carries a leading space) still
produces no write, because the source compares after `strip()`. -/
theorem c2_counterexample :
    (scanLines
      [FILE_NAME_MARKER ++ chars "a.txt\n",
       CODE_BLOCK_MARKER ++ chars "txt\n",
       chars " [Binary file content skipped]\n",
       CODE_BLOCK_MARKER ++ ['\n']] initState).writes = [] ∧
    chars " [Binary file content skipped]\n" ≠ BINARY_PLACEHOLDER ++ ['\n'] :=
  ⟨rfl, by decide⟩

/-- Witness for C2 at a concrete closing step: an ordinary payload is
written verbatim for the pending path. -/
theorem c2_witness :
    (processLine ⟨some (chars "a.txt"), [chars "hello\n"], 2, true, [], [], 5⟩
      (CODE_BLOCK_MARKER ++ ['\n'])).writes = [(chars "a.txt", chars "hello\n")] := by
  have h := (c2_finalization_placeholder
    ⟨some (chars "a.txt"), [chars "hello\n"], 2, true, [], [], 5⟩
    (CODE_BLOCK_MARKER ++ ['\n']) (chars "a.txt")
    (by decide) rfl rfl rfl).2.1 (by decide)
  simpa using h

/-! ## Claim C3 -/

/-- Claim C3 (amended): a marker line whose extracted path contains the
substring `..` (hence any parent-directory segment) is rejected with a
warning and produces no state change beyond it; consequently every
recorded write has a `..`-free path, and every write with a relative
path lands under the destination root — but an absolute marker path is
joined as itself and can fall outside the root.  An empty extracted
path is skipped with a warning, the scanner state otherwise
unchanged. -/
theorem c3_unsafe_paths_rejected :
    (∀ (s : ScanState) (l : Str), s.st = 0 → isMarkerLine l = true →
      pyStrip (l.drop FILE_NAME_MARKER.length) ≠ [] →
      hasSub DOTDOT (pyStrip (l.drop FILE_NAME_MARKER.length)) = true →
      processLine s l =
        { s with warns := s.warns ++
                   [.unsafePath (pyStrip (l.drop FILE_NAME_MARKER.length))
                      (s.lineNum + 1)],
                 lineNum := s.lineNum + 1 }) ∧
    (∀ lines : List Str, ∀ pc ∈ (scanLines lines initState).writes,
      hasSub DOTDOT pc.1 = false) ∧
    (∀ root p : Str, ['/'].isPrefixOf p = false →
      pathJoin root p = root ++ '/' :: p) ∧
    (∀ (s : ScanState) (l : Str), s.st = 0 → isMarkerLine l = true →
      pyStrip (l.drop FILE_NAME_MARKER.length) = [] →
      processLine s l =
        { s with warns := s.warns ++ [.emptyPath (s.lineNum + 1)],
                 lineNum := s.lineNum + 1 }) := by
  refine ⟨?_, ?_, ?_, ?_⟩
  · intro s l hst hm he hd
    exact processLine_marker_dotdot s l (not_fence_of_marker l hm) hst hm he hd
  · intro lines pc hpc
    exact (scanInv_scanLines lines initState scanInv_init).2.1 pc hpc
  · intro root p hp
    simp [pathJoin, hp]
  · intro s l hst hm he
    exact processLine_marker_empty s l (not_fence_of_marker l hm) hst hm he

/-- Counterexample to C3 as stated: a marker with an absolute path
suffix (`/etc/evil`, no `..`) is accepted and written; the decoder's
join `output_dir / path` then discards the destination root, so a file
is written outside the destination root. -/
theorem c3_counterexample :
    (scanLines
      [FILE_NAME_MARKER ++ chars "/etc/evil\n",
       CODE_BLOCK_MARKER ++ ['\n'],
       chars "x\n",
       CODE_BLOCK_MARKER ++ ['\n']] initState).writes
      = [(chars "/etc/evil", chars "x\n")] ∧
    pathJoin (chars "restored") (chars "/etc/evil") = chars "/etc/evil" ∧
    (chars "restored").isPrefixOf
      (pathJoin (chars "restored") (chars "/etc/evil")) = false :=
  ⟨rfl, rfl, by decide⟩

/-- Witness for C3 at a concrete marker line containing `..`: the entry
is rejected with a warning and no file is recorded. -/
theorem c3_witness :
    (processLine initState (FILE_NAME_MARKER ++ chars "../evil.txt\n")).warns =
      [.unsafePath (chars "../evil.txt") 1] ∧
    (processLine initState (FILE_NAME_MARKER ++ chars "../evil.txt\n")).writes = [] := by
  rw [c3_unsafe_paths_rejected.1 initState (FILE_NAME_MARKER ++ chars "../evil.txt\n")
    rfl (by decide) (by decide) (by decide)]
  exact ⟨by decide, rfl⟩

/-! ## Claim C9 -/

/-- `finalizeScan` on a state with a pending file and nonzero machine
state: both end-of-input warnings are appended; nothing else changes. -/
theorem finalizeScan_mid (fin : ScanState) (p : Str)
    (hst : fin.st ≠ 0) (hcu : fin.cur = some p) :
    finalizeScan fin =
      { fin with warns := fin.warns ++ [.endedMidState fin.st, .incomplete p] } := by
  unfold finalizeScan
  rw [if_pos hst]
  simp [hcu]

/-- Claim C9: a document that ends while a record is pending (awaiting
the opening fence, or inside a content block) produces a warning naming
the possibly incomplete path, the intermediate-state warning, and
exactly the writes of the earlier complete blocks; scanning any further
input can only append further writes, never disturb earlier ones. -/
theorem c9_truncation_warning :
    (∀ doc : Str,
      (scanLines (readLines doc) initState).st ≠ 0 →
      ∃ p, (scanLines (readLines doc) initState).cur = some p ∧
        RWarn.incomplete p ∈ (restore_repo doc).warns ∧
        RWarn.endedMidState (scanLines (readLines doc) initState).st ∈
          (restore_repo doc).warns ∧
        (restore_repo doc).writes = (scanLines (readLines doc) initState).writes) ∧
    (∀ ls more : List Str, ∃ e,
      (scanLines (ls ++ more) initState).writes =
        (scanLines ls initState).writes ++ e) := by
  constructor
  · intro doc hst
    obtain ⟨-, -, hsc⟩ := scanInv_scanLines (readLines doc) initState scanInv_init
    cases hcu : (scanLines (readLines doc) initState).cur with
    | none => exact absurd hcu (hsc hst)
    | some p =>
      refine ⟨p, rfl, ?_, ?_, ?_⟩ <;>
        · rw [show restore_repo doc = finalizeScan (scanLines (readLines doc) initState)
                from rfl,
              finalizeScan_mid _ p hst hcu]
          try simp
  · intro ls more
    rw [show scanLines (ls ++ more) initState
          = scanLines more (scanLines ls initState)
        from List.foldl_append ..]
    exact scanLines_writes_mono more (scanLines ls initState)

/-- Witness for C9 on a concretely truncated document: the incomplete
file is named in a warning and the earlier writes list survives. -/
theorem c9_witness :
    RWarn.incomplete (chars "a.txt") ∈
      (restore_repo (chars "###### File: a.txt\n````````````\nhi")).warns := by
  obtain ⟨p, hp, h1, -, -⟩ := c9_truncation_warning.1
    (chars "###### File: a.txt\n````````````\nhi") (by decide)
  have hq : some (chars "a.txt") = some p := by
    rw [← hp]; decide
  rw [Option.some.inj hq]
  exact h1

/-! ## Claim C7 -/

/-- Keys of one dictionary level. -/
def keysOf (l : List (Str × Entry)) : List Str := l.map Prod.fst

mutual
/-- Well-formedness of a tree value: every level binds each name at
most once — so no name is simultaneously a file and a directory. -/
def goodE : Entry → Bool
  | .file => true
  | .dir ch => goodL ch

def goodL : List (Str × Entry) → Bool
  | [] => true
  | (n, e) :: tl => !(keysOf tl).contains n && goodE e && goodL tl
end

theorem contains_false_iff (l : List Str) (a : Str) :
    l.contains a = false ↔ a ∉ l := by
  constructor
  · intro h hmem
    have hc : l.contains a = true := List.elem_iff.mpr hmem
    rw [h] at hc; cases hc
  · intro h
    cases hc : l.contains a with
    | false => rfl
    | true => exact absurd (List.elem_iff.mp hc) h

theorem goodL_cons (n : Str) (e : Entry) (tl : List (Str × Entry)) :
    goodL ((n, e) :: tl) = true ↔
      n ∉ keysOf tl ∧ goodE e = true ∧ goodL tl = true := by
  rw [goodL, Bool.and_eq_true, Bool.and_eq_true, Bool.not_eq_true',
    contains_false_iff]
  tauto

theorem mem_keysOf_assignE (l : List (Str × Entry)) (k : Str) (v : Entry) (a : Str) :
    a ∈ keysOf (assignE l k v) ↔ a ∈ keysOf l ∨ a = k := by
  induction l with
  | nil => simp [assignE, keysOf]
  | cons hd tl ih =>
    obtain ⟨k', v'⟩ := hd
    by_cases hk : k' = k
    · subst hk
      simp only [assignE, if_pos rfl, keysOf, List.map_cons]
      simp [keysOf] at *
      tauto
    · simp only [assignE, if_neg hk, keysOf, List.map_cons]
      simp [keysOf] at ih ⊢
      tauto

theorem lookup_none_iff (l : List (Str × Entry)) (k : Str) :
    List.lookup k l = none ↔ k ∉ keysOf l := by
  induction l with
  | nil => simp [keysOf]
  | cons hd tl ih =>
    obtain ⟨k', v'⟩ := hd
    by_cases hk : k = k'
    · subst hk; simp [List.lookup, keysOf]
    · have hb : (k == k') = false := beq_eq_false_iff_ne.mpr hk
      rw [List.lookup]
      simp only [hb]
      rw [ih]
      simp [keysOf, hk]

theorem lookup_assignE_self (l : List (Str × Entry)) (k : Str) (v : Entry) :
    List.lookup k (assignE l k v) = some v := by
  induction l with
  | nil => simp [assignE, List.lookup]
  | cons hd tl ih =>
    obtain ⟨k', v'⟩ := hd
    by_cases hk : k' = k
    · subst hk; simp [assignE, List.lookup]
    · have hb : (k == k') = false := beq_eq_false_iff_ne.mpr (Ne.symm hk)
      simp [assignE, hk, List.lookup, hb, ih]

theorem goodE_of_lookup (l : List (Str × Entry)) (k : Str) (e : Entry)
    (hg : goodL l = true) (h : List.lookup k l = some e) : goodE e = true := by
  induction l with
  | nil => cases h
  | cons hd tl ih =>
    obtain ⟨k', v'⟩ := hd
    obtain ⟨-, hv, htl⟩ := (goodL_cons k' v' tl).mp hg
    by_cases hk : k = k'
    · subst hk
      simp [List.lookup] at h
      exact h ▸ hv
    · have hb : (k == k') = false := beq_eq_false_iff_ne.mpr hk
      rw [List.lookup] at h
      simp only [hb] at h
      exact ih htl h

theorem goodL_assignE (l : List (Str × Entry)) (k : Str) (v : Entry)
    (hg : goodL l = true) (hv : goodE v = true) :
    goodL (assignE l k v) = true := by
  induction l with
  | nil =>
    rw [assignE, goodL_cons]
    exact ⟨by simp [keysOf], hv, rfl⟩
  | cons hd tl ih =>
    obtain ⟨k', v'⟩ := hd
    obtain ⟨h1, h2, h3⟩ := (goodL_cons k' v' tl).mp hg
    by_cases hk : k' = k
    · subst hk
      rw [assignE, if_pos rfl, goodL_cons]
      exact ⟨h1, hv, h3⟩
    · rw [assignE, if_neg hk, goodL_cons]
      refine ⟨?_, h2, ih h3⟩
      intro hmem
      rcases (mem_keysOf_assignE tl k v k').mp hmem with h' | h'
      · exact h1 h'
      · exact hk h'

theorem goodL_append_fresh (l : List (Str × Entry)) (k : Str) (v : Entry)
    (hg : goodL l = true) (hk : k ∉ keysOf l) (hv : goodE v = true) :
    goodL (l ++ [(k, v)]) = true := by
  induction l with
  | nil =>
    rw [List.nil_append, goodL_cons]
    exact ⟨by simp [keysOf], hv, rfl⟩
  | cons hd tl ih =>
    obtain ⟨k', v'⟩ := hd
    obtain ⟨h1, h2, h3⟩ := (goodL_cons k' v' tl).mp hg
    rw [List.cons_append, goodL_cons]
    refine ⟨?_, h2, ih h3 (fun hm => hk (by simp [keysOf]; right; simpa [keysOf] using hm))⟩
    intro hmem
    rw [keysOf, List.map_append] at hmem
    rcases List.mem_append.mp hmem with h' | h'
    · exact h1 h'
    · simp [keysOf] at h'
      apply hk
      simp [keysOf, h']

theorem goodL_insertParts (parts : List Str) (lvl : List (Str × Entry))
    (hg : goodL lvl = true) : goodL (insertParts lvl parts).1 = true := by
  induction parts generalizing lvl with
  | nil => exact hg
  | cons part rest ih =>
    cases rest with
    | nil =>
      cases hlk : List.lookup part lvl with
      | none =>
        rw [show insertParts lvl [part] = (assignE lvl part .file, []) by
          rw [insertParts, hlk]]
        exact goodL_assignE lvl part .file hg rfl
      | some e =>
        cases e with
        | file =>
          rw [show insertParts lvl [part] = (assignE lvl part .file, []) by
            rw [insertParts, hlk]]
          exact goodL_assignE lvl part .file hg rfl
        | dir ch =>
          rw [show insertParts lvl [part] = (lvl, [.fileConflictsDir part]) by
            rw [insertParts, hlk]]
          exact hg
    | cons r rs =>
      cases hlk : List.lookup part lvl with
      | none =>
        rw [show insertParts lvl (part :: r :: rs)
              = (lvl ++ [(part, .dir (insertParts [] (r :: rs)).1)],
                 (insertParts [] (r :: rs)).2) by
          simp only [insertParts, hlk]]
        exact goodL_append_fresh lvl part _ hg ((lookup_none_iff lvl part).mp hlk)
          (ih [] rfl)
      | some e =>
        cases e with
        | file =>
          rw [show insertParts lvl (part :: r :: rs)
                = (assignE lvl part (.dir (insertParts [] (r :: rs)).1),
                   .dirOverwritesFile part :: (insertParts [] (r :: rs)).2) by
            simp only [insertParts, hlk]]
          exact goodL_assignE lvl part _ hg (ih [] rfl)
        | dir ch =>
          rw [show insertParts lvl (part :: r :: rs)
                = (assignE lvl part (.dir (insertParts ch (r :: rs)).1),
                   (insertParts ch (r :: rs)).2) by
            simp only [insertParts, hlk]]
          exact goodL_assignE lvl part _ hg
            (ih ch (goodE_of_lookup lvl part (.dir ch) hg hlk))

theorem goodL_build_tree_aux (files : List (List Str))
    (acc : List (Str × Entry) × List TreeDiag) (hg : goodL acc.1 = true) :
    goodL (files.foldl
      (fun acc parts =>
        let r := insertParts acc.1 parts
        (r.1, acc.2 ++ r.2)) acc).1 = true := by
  induction files generalizing acc with
  | nil => exact hg
  | cons f fs ih => exact ih _ (goodL_insertParts f acc.1 hg)

/-- Claim C7: `build_tree` inserts each path segment-by-segment; an
intermediate segment that collides with a previously inserted file
entry is overwritten by a directory and a diagnostic is emitted, with
no failure; a final segment that collides with an existing directory
entry is dropped and a diagnostic is emitted; in the resulting tree no
level binds a name twice, so no segment is simultaneously a file and a
directory. -/
theorem c7_build_tree_conflicts :
    (∀ (lvl : List (Str × Entry)) (part : Str) (r : Str) (rs : List Str),
      List.lookup part lvl = some .file →
      insertParts lvl (part :: r :: rs) =
        (assignE lvl part (.dir (insertParts [] (r :: rs)).1),
         .dirOverwritesFile part :: (insertParts [] (r :: rs)).2) ∧
      List.lookup part (insertParts lvl (part :: r :: rs)).1 =
        some (.dir (insertParts [] (r :: rs)).1)) ∧
    (∀ (lvl : List (Str × Entry)) (part : Str) (ch : List (Str × Entry)),
      List.lookup part lvl = some (.dir ch) →
      insertParts lvl [part] = (lvl, [.fileConflictsDir part])) ∧
    (∀ files : List (List Str), goodL (build_tree files).1 = true) := by
  refine ⟨?_, ?_, ?_⟩
  · intro lvl part r rs hlk
    have heq : insertParts lvl (part :: r :: rs)
        = (assignE lvl part (.dir (insertParts [] (r :: rs)).1),
           .dirOverwritesFile part :: (insertParts [] (r :: rs)).2) := by
      simp only [insertParts, hlk]
    exact ⟨heq, by rw [heq]; exact lookup_assignE_self lvl part _⟩
  · intro lvl part ch hlk
    rw [insertParts, hlk]
  · intro files
    exact goodL_build_tree_aux files ([], []) rfl

/-- Witness for C7 at concrete collisions: `x` file then `x/y` turns
`x` into a directory with a diagnostic; a file at an existing directory
name is dropped with a diagnostic. -/
theorem c7_witness :
    insertParts [(chars "x", Entry.file)] [chars "x", chars "y"] =
      ([(chars "x", Entry.dir [(chars "y", Entry.file)])],
       [TreeDiag.dirOverwritesFile (chars "x")]) ∧
    insertParts [(chars "x", Entry.dir [])] [chars "x"] =
      ([(chars "x", Entry.dir [])], [TreeDiag.fileConflictsDir (chars "x")]) := by
  constructor
  · rw [(c7_build_tree_conflicts.1 [(chars "x", Entry.file)] (chars "x") (chars "y") []
      rfl).1]
    rfl
  · exact c7_build_tree_conflicts.2.1 [(chars "x", Entry.dir [])] (chars "x") [] rfl

/-! ## Claim C8 -/

/-- LF-normalised text contains no carriage returns. -/
theorem noCR_normalizeNewlines (c : Str) : '\r' ∉ normalizeNewlines c := by
  unfold normalizeNewlines
  intro hmem
  obtain ⟨x, -, hx⟩ := List.mem_map.mp hmem
  by_cases h : x = '\r'
  · rw [if_pos h] at hx
    exact absurd hx (by decide)
  · rw [if_neg h] at hx
    exact h hx

/-- Claim C8 (amended): a text record's payload is the file's decoded
text with CR and CRLF mapped to LF — unchanged when the normalised text
is empty or already newline-terminated, otherwise with one newline
appended — so every nonempty payload ends in a newline and no payload
contains a carriage return; a per-file read error never aborts the
encoder: the inline message becomes that file's payload and the
remaining records are emitted unchanged after it. -/
theorem c8_text_payload_normalized (c e : Str) (f : SrcFile) (rest : List SrcFile) :
    (text_payload (.ok c) = normalizeNewlines c ∨
      text_payload (.ok c) = normalizeNewlines c ++ ['\n']) ∧
    ('\r' ∉ text_payload (.ok c)) ∧
    (text_payload (.ok c) ≠ [] → endsNL (text_payload (.ok c)) = true) ∧
    (text_payload (.error e) = chars "Error reading file: " ++ e ++ ['\n']) ∧
    ((f :: rest).map (fun g => text_record g.path g.read)).flatten =
      text_record f.path f.read ++
        (rest.map (fun g => text_record g.path g.read)).flatten := by
  refine ⟨?_, ?_, ?_, rfl, by simp⟩
  · by_cases h : normalizeNewlines c ≠ [] ∧ ¬ endsNL (normalizeNewlines c)
    · right; simp only [text_payload, if_pos h]
    · left; simp only [text_payload, if_neg h, List.append_nil]
  · by_cases h : normalizeNewlines c ≠ [] ∧ ¬ endsNL (normalizeNewlines c)
    · simp only [text_payload, if_pos h]
      intro hmem
      rcases List.mem_append.mp hmem with h' | h'
      · exact noCR_normalizeNewlines c h'
      · rcases List.mem_singleton.mp h' with h''
        exact absurd h'' (by decide)
    · simp only [text_payload, if_neg h, List.append_nil]
      exact noCR_normalizeNewlines c
  · intro hne
    by_cases h : normalizeNewlines c ≠ [] ∧ ¬ endsNL (normalizeNewlines c)
    · simp only [text_payload, if_pos h]
      simp [endsNL, List.getLast?_concat]
    · simp only [text_payload, if_neg h, List.append_nil] at hne ⊢
      push_neg at h
      exact h hne

/-- Counterexample to C8 as stated: the payload emitted for an empty
text file is empty, so it does not end with a newline — the trailing
newline is only guaranteed for nonempty payloads. -/
theorem c8_counterexample :
    text_payload (Except.ok []) = [] ∧
    endsNL (text_payload (Except.ok [])) = false := by
  exact ⟨rfl, rfl⟩

/-- Witness for C8 at concrete content lacking a final newline: the
emitted payload gains one. -/
theorem c8_witness :
    endsNL (text_payload (Except.ok (chars "x"))) = true :=
  (c8_text_payload_normalized (chars "x") [] ⟨[], false, Except.ok []⟩ []).2.2.1
    (by decide)

/-! ## Claim C6 -/

theorem isFile_of_keepsItem (ctx : FilterCtx) (it : FsItem)
    (h : keepsItem ctx it = true) : it.isFile = true := by
  cases h2 : it.isFile with
  | true => rfl
  | false =>
    cases h1 : it.isOutputFile <;> rw [keepsItem] at h <;> simp [h1, h2] at h

/-- Claim C6 (amended): the list returned by `list_files` contains only
paths of regular files, has no duplicates, and is sorted by the `Path`
order — lexicographic comparison of the parts tuples, not of the path
strings; being a pure function of the traversal and the patterns,
re-running it on the same inputs returns the identical list. -/
theorem c6_list_files_sorted_nodup (ctx : FilterCtx) (items : List FsItem) :
    (∀ p ∈ list_files ctx items, ∃ it ∈ items, it.relPath = p ∧ it.isFile = true) ∧
    (list_files ctx items).Nodup ∧
    (list_files ctx items).Sorted pathPartsLE ∧
    list_files ctx items = list_files ctx items := by
  refine ⟨?_, ?_, ?_, rfl⟩
  · intro p hp
    unfold list_files at hp
    have hp' : p ∈ ((items.filter (keepsItem ctx)).map FsItem.relPath).dedup :=
      (List.perm_insertionSort _ _).mem_iff.mp hp
    obtain ⟨it, hit, rfl⟩ := List.mem_map.mp (List.mem_dedup.mp hp')
    have hfil := List.mem_filter.mp hit
    exact ⟨it, hfil.1, rfl, isFile_of_keepsItem ctx it hfil.2⟩
  · exact (List.perm_insertionSort _ _).nodup_iff.mpr (List.nodup_dedup _)
  · exact List.sorted_insertionSort _ _

/-- Counterexample to C6 as stated: on a traversal containing `a.b` and
`a/b` the program returns `[a/b, a.b]` — `Path` ordering compares the
parts tuples, and `[a, b] < [a.b]` since `a` is a proper prefix of
`a.b` — and that list is not sorted lexicographically by the path
string, because `a.b < a/b` (the code point of `.` precedes that of
`/`). -/
theorem c6_counterexample :
    list_files ⟨fun _ => false, fun _ => false, none⟩
        [⟨chars "a.b", true, false⟩, ⟨chars "a/b", true, false⟩]
      = [chars "a/b", chars "a.b"] ∧
    ¬ ([chars "a/b", chars "a.b"] : List Str).Sorted (· ≤ ·) := by
  exact ⟨by decide, by decide⟩

/-- Witness for C6: membership in a concrete run names a concrete
regular file of the traversal. -/
theorem c6_witness :
    ∃ it ∈ ([⟨chars "b.txt", true, false⟩, ⟨chars "a.txt", true, false⟩] : List FsItem),
      it.relPath = chars "a.txt" ∧ it.isFile = true :=
  (c6_list_files_sorted_nodup ⟨fun _ => false, fun _ => false, none⟩
    [⟨chars "b.txt", true, false⟩, ⟨chars "a.txt", true, false⟩]).1
    (chars "a.txt") (by decide)

/-! ## Claim C1: newline-normalisation and line-splitting toolkit -/

theorem replaceCRLF_cons_ne (c : Char) (tl : Str) (hc : c ≠ '\r') :
    replaceCRLF (c :: tl) = c :: replaceCRLF tl := by
  cases tl with
  | nil => simp [replaceCRLF]
  | cons d tl2 =>
    rw [replaceCRLF.eq_def]
    split
    next heq => rw [List.cons.injEq] at heq; exact absurd heq.1 hc
    next heq => injection heq with h1 h2; subst h1; subst h2; rfl
    next heq => cases heq

theorem replaceCRLF_eq_self : ∀ s : Str, '\r' ∉ s → replaceCRLF s = s
  | [], _ => rfl
  | c :: tl, h => by
    rw [replaceCRLF_cons_ne c tl (fun hh => h (hh ▸ List.mem_cons_self c tl)),
      replaceCRLF_eq_self tl (fun hm => h (List.mem_cons_of_mem c hm))]

theorem mapCR_eq_self : ∀ s : Str, '\r' ∉ s →
    s.map (fun c => if c = '\r' then '\n' else c) = s
  | [], _ => rfl
  | c :: tl, h => by
    rw [List.map_cons, if_neg (fun hh : c = '\r' => h (hh ▸ List.mem_cons_self c tl)),
      mapCR_eq_self tl (fun hm => h (List.mem_cons_of_mem c hm))]

/-- Reading back a carriage-return-free document translates nothing. -/
theorem normalizeNewlines_eq_self (s : Str) (h : '\r' ∉ s) :
    normalizeNewlines s = s := by
  unfold normalizeNewlines
  rw [replaceCRLF_eq_self s h]
  exact mapCR_eq_self s h

/-- Joining the kept-terminator lines reproduces the text. -/
theorem flatten_splitLinesKeep (s : Str) : (splitLinesKeep s).flatten = s := by
  induction s with
  | nil => rfl
  | cons c tl ih =>
    rw [splitLinesKeep]
    by_cases hc : c = '\n'
    · rw [if_pos hc]; subst hc; simpa using ih
    · rw [if_neg hc]
      cases h : splitLinesKeep tl with
      | nil =>
        rw [h] at ih
        simp only [List.flatten_nil] at ih
        simp [← ih]
      | cons l ls =>
        rw [h] at ih
        simpa using ih

/-- A proper document line: terminated by its only newline. -/
def ProperLine (l : Str) : Prop := ∃ m, l = m ++ ['\n'] ∧ '\n' ∉ m

theorem splitLinesKeep_append_proper (m rest : Str) (hm : '\n' ∉ m) :
    splitLinesKeep (m ++ '\n' :: rest) = (m ++ ['\n']) :: splitLinesKeep rest := by
  induction m with
  | nil => simp [splitLinesKeep]
  | cons c m' ih =>
    have hc : c ≠ '\n' := fun h => hm (h ▸ List.mem_cons_self c m')
    rw [List.cons_append, splitLinesKeep, if_neg hc,
      ih (fun h => hm (List.mem_cons_of_mem c h))]
    rfl

/-- Splitting the concatenation of proper lines recovers them. -/
theorem splitLinesKeep_flatten_proper (L : List Str)
    (hL : ∀ l ∈ L, ProperLine l) : splitLinesKeep L.flatten = L := by
  induction L with
  | nil => rfl
  | cons l ls ih =>
    obtain ⟨m, rfl, hm⟩ := hL l (List.mem_cons_self l ls)
    rw [List.flatten_cons, List.append_assoc, List.singleton_append,
      splitLinesKeep_append_proper m _ hm,
      ih (fun l' hl' => hL l' (List.mem_cons_of_mem _ hl'))]

theorem splitLinesKeep_eq_nil_iff (s : Str) : splitLinesKeep s = [] ↔ s = [] := by
  cases s with
  | nil => exact ⟨fun _ => rfl, fun _ => rfl⟩
  | cons c tl =>
    simp only [splitLinesKeep]
    constructor
    · intro h
      by_cases hc : c = '\n'
      · rw [if_pos hc] at h; cases h
      · rw [if_neg hc] at h
        cases h2 : splitLinesKeep tl with
        | nil => rw [h2] at h; cases h
        | cons l ls => rw [h2] at h; cases h
    · intro h; cases h

theorem endsNL_cons (c : Char) (tl : Str) (h : tl ≠ []) :
    endsNL (c :: tl) = endsNL tl := by
  cases tl with
  | nil => exact absurd rfl h
  | cons d tl2 => unfold endsNL; rw [List.getLast?_cons_cons]

/-- Every line of a newline-terminated text is proper. -/
theorem splitLinesKeep_proper : ∀ s : Str, endsNL s = true →
    ∀ l ∈ splitLinesKeep s, ProperLine l
  | [], h => by cases h
  | c :: tl, h => by
    intro l hl
    rw [splitLinesKeep] at hl
    by_cases hc : c = '\n'
    · rw [if_pos hc] at hl
      rcases List.mem_cons.mp hl with rfl | hl'
      · exact ⟨[], rfl, by simp⟩
      · cases htl : tl with
        | nil => rw [htl] at hl'; cases hl'
        | cons d tl2 =>
          have hend : endsNL tl = true := by
            rw [← endsNL_cons c tl (by rw [htl]; exact List.cons_ne_nil d tl2)]
            exact h
          exact splitLinesKeep_proper tl hend l hl'
    · rw [if_neg hc] at hl
      cases h2 : splitLinesKeep tl with
      | nil =>
        have htl : tl = [] := (splitLinesKeep_eq_nil_iff tl).mp h2
        subst htl
        rw [h2] at hl
        rcases List.mem_singleton.mp hl with rfl
        have : c = '\n' := by simpa [endsNL] using h
        exact absurd this hc
      | cons l0 ls =>
        have htlne : tl ≠ [] := by
          intro hh; rw [hh] at h2; cases h2
        have hend : endsNL tl = true := by
          rw [← endsNL_cons c tl htlne]; exact h
        rw [h2] at hl
        rcases List.mem_cons.mp hl with rfl | hl'
        · obtain ⟨m0, hm0, hnm0⟩ :=
            splitLinesKeep_proper tl hend l0 (h2 ▸ List.mem_cons_self l0 ls)
          refine ⟨c :: m0, by rw [hm0]; rfl, ?_⟩
          intro hmem
          rcases List.mem_cons.mp hmem with heq | hmem'
          · exact hc heq.symm
          · exact hnm0 hmem'
        · exact splitLinesKeep_proper tl hend l (h2 ▸ List.mem_cons_of_mem l0 hl')

/-! ## Claim C1: stripping and line-classification facts -/

theorem dropTrail_append (a b : Str) :
    dropTrail (a ++ b) =
      if dropTrail b = [] then dropTrail a else a ++ dropTrail b := by
  induction a with
  | nil => by_cases h : dropTrail b = [] <;> simp [h, dropTrail]
  | cons c a' ih =>
    rw [List.cons_append]
    by_cases h : dropTrail b = []
    · simp only [dropTrail, ih, if_pos h]
    · simp only [dropTrail, ih, if_neg h]
      cases hx : a' ++ dropTrail b with
      | nil =>
        rcases List.append_eq_nil.mp hx with ⟨-, h2⟩
        exact absurd h2 h
      | cons y ys =>
        rw [List.cons_append, hx]

theorem pyStrip_append_nl (x : Str) : pyStrip (x ++ ['\n']) = pyStrip x := by
  unfold pyStrip
  rw [List.dropWhile_append]
  by_cases h : (x.dropWhile isPySpace).isEmpty
  · rw [if_pos h, List.isEmpty_iff.mp h]
    rfl
  · rw [if_neg h, dropTrail_append, if_pos (show dropTrail ['\n'] = [] from rfl)]

theorem not_fence_of_head (c : Char) (t : Str) (hsp : isPySpace c = false)
    (hc : ('`' == c) = false) : isFenceLine (c :: t) = false := by
  obtain ⟨t', ht'⟩ := pyStrip_cons_head c t hsp
  unfold isFenceLine
  rw [ht', show CODE_BLOCK_MARKER = '`' :: chars "```````````" from rfl]
  exact isPrefixOf_false_of_head_ne _ _ _ _ hc

theorem not_marker_of_head (c : Char) (t : Str) (hc : ('#' == c) = false) :
    isMarkerLine (c :: t) = false := by
  unfold isMarkerLine
  rw [show FILE_NAME_MARKER = '#' :: chars "##### File: " from rfl]
  exact isPrefixOf_false_of_head_ne _ _ _ _ hc

theorem isFence_fence_lead (z : Str) :
    isFenceLine (CODE_BLOCK_MARKER ++ z) = true := by
  unfold isFenceLine pyStrip
  rw [show CODE_BLOCK_MARKER ++ z = '`' :: (chars "```````````" ++ z) from rfl,
    List.dropWhile_cons, if_neg (by decide : ¬ (isPySpace '`' = true)),
    show ('`' : Char) :: (chars "```````````" ++ z) = CODE_BLOCK_MARKER ++ z from rfl,
    dropTrail_append]
  by_cases h : dropTrail z = []
  · rw [if_pos h]; decide
  · rw [if_neg h]
    simp only [ List.isPrefixOf_iff_prefix]
    exact List.prefix_append _ _

theorem isMarker_marker_lead (z : Str) :
    isMarkerLine (FILE_NAME_MARKER ++ z) = true := by
  unfold isMarkerLine
  simp only [ List.isPrefixOf_iff_prefix]
  exact List.prefix_append _ _

theorem title_not_marker (name tail : Str) :
    isMarkerLine (chars "# Repository: " ++ name ++ tail) = false := by
  rw [show chars "# Repository: " ++ name ++ tail
        = '#' :: (' ' :: (chars "Repository: " ++ name ++ tail)) from rfl]
  unfold isMarkerLine
  rw [show FILE_NAME_MARKER = '#' :: '#' :: chars "#### File: " from rfl]
  show (('#' == '#') &&
    (('#' == ' ') && (chars "#### File: ").isPrefixOf (chars "Repository: " ++ name ++ tail)))
      = false
  rw [show (('#' : Char) == ' ') = false from rfl]
  simp

theorem title_not_fence (name tail : Str) :
    isFenceLine (chars "# Repository: " ++ name ++ tail) = false := by
  rw [show chars "# Repository: " ++ name ++ tail
        = '#' :: (' ' :: (chars "Repository: " ++ name ++ tail)) from rfl]
  exact not_fence_of_head _ _ (by decide) (by decide)

/-- Characters allowed in a tree-line indentation prefix. -/
def BarSpace (c : Char) : Prop := c = ' ' ∨ c = '│'

theorem dropWhile_barspace (q : Str) (c : Char) (r : Str)
    (hq : ∀ ch ∈ q, BarSpace ch) (hc : c = '├' ∨ c = '└') :
    ∃ h t, (q ++ c :: r).dropWhile isPySpace = h :: t ∧
      (h = '│' ∨ h = '├' ∨ h = '└') := by
  induction q with
  | nil =>
    refine ⟨c, r, ?_, Or.inr hc⟩
    rw [List.nil_append, List.dropWhile_cons,
      if_neg (show ¬ (isPySpace c = true) by rcases hc with h | h <;> subst h <;> decide)]
  | cons a q' ih =>
    rcases hq a (List.mem_cons_self a q') with ha | ha
    · subst ha
      obtain ⟨h0, t0, heq, hh⟩ := ih (fun ch hch => hq ch (List.mem_cons_of_mem _ hch))
      refine ⟨h0, t0, ?_, hh⟩
      rw [List.cons_append, List.dropWhile_cons, if_pos (by decide : isPySpace ' ' = true)]
      exact heq
    · subst ha
      refine ⟨'│', q' ++ c :: r, ?_, Or.inl rfl⟩
      rw [List.cons_append, List.dropWhile_cons,
        if_neg (by decide : ¬ (isPySpace '│' = true))]

theorem tree_line_inert (q : Str) (c : Char) (r : Str)
    (hq : ∀ ch ∈ q, BarSpace ch) (hc : c = '├' ∨ c = '└') :
    isFenceLine (q ++ c :: r) = false ∧ isMarkerLine (q ++ c :: r) = false := by
  constructor
  · obtain ⟨h0, t0, heq, hh⟩ := dropWhile_barspace q c r hq hc
    have hsp : isPySpace h0 = false := by
      rcases hh with h | h | h <;> subst h <;> decide
    obtain ⟨t1, ht1⟩ := dropTrail_cons_head h0 t0 hsp
    unfold isFenceLine pyStrip
    rw [heq, ht1, show CODE_BLOCK_MARKER = '`' :: chars "```````````" from rfl]
    apply isPrefixOf_false_of_head_ne
    rcases hh with h | h | h <;> subst h <;> decide
  · cases q with
    | nil =>
      rw [List.nil_append]
      apply not_marker_of_head
      rcases hc with h | h <;> subst h <;> decide
    | cons a q' =>
      rw [List.cons_append]
      apply not_marker_of_head
      rcases hq a (List.mem_cons_self a q') with h | h <;> subst h <;> decide

/-! ## Claim C1: scanning one text record -/

theorem scanLines_cons (l : Str) (ls : List Str) (s : ScanState) :
    scanLines (l :: ls) s = scanLines ls (processLine s l) := rfl

theorem scanLines_append (ls1 ls2 : List Str) (s : ScanState) :
    scanLines (ls1 ++ ls2) s = scanLines ls2 (scanLines ls1 s) :=
  List.foldl_append _ _ _ _

/-- The lines of one text record as they appear in the document. -/
def textRecordLines (p : Str) (r : ReadResult) : List Str :=
  (FILE_NAME_MARKER ++ p ++ ['\n']) ::
  (CODE_BLOCK_MARKER ++ langHint p ++ ['\n']) ::
  (splitLinesKeep (text_payload r) ++ [CODE_BLOCK_MARKER ++ ['\n'], ['\n']])

theorem flatten_textRecordLines (p : Str) (r : ReadResult) :
    (textRecordLines p r).flatten = text_record p r := by
  simp [textRecordLines, text_record, flatten_splitLinesKeep,
    show chars "\n\n" = ['\n', '\n'] from rfl]

/-- Scanning non-fence lines inside a content block buffers them. -/
theorem scan_content_lines (ls : List Str) (s : ScanState)
    (hst : s.st = 2) (hin : s.inside = true)
    (hfence : ∀ l ∈ ls, isFenceLine l = false) :
    scanLines ls s =
      { s with buf := s.buf ++ ls, lineNum := s.lineNum + ls.length } := by
  induction ls generalizing s with
  | nil => cases s; simp [scanLines]
  | cons l tl ih =>
    rw [scanLines_cons,
      processLine_content s l (hfence l (List.mem_cons_self l tl)) hst hin,
      ih { s with buf := s.buf ++ [l], lineNum := s.lineNum + 1 } hst hin
        (fun l' hl' => hfence l' (List.mem_cons_of_mem l hl'))]
    cases s
    simp
    omega

/-- The round-trip hypotheses on one text file: a clean nonempty
relative path, and a payload that cannot collide with the document's
framing. -/
structure GoodTextFile (p c : Str) : Prop where
  nonempty : p ≠ []
  stripped : pyStrip p = p
  noDotdot : hasSub DOTDOT p = false
  noNL : '\n' ∉ p
  noCR : '\r' ∉ p
  payloadSafe : ∀ l ∈ splitLinesKeep (text_payload (.ok c)), isFenceLine l = false
  notPlaceholder : pyStrip (text_payload (.ok c)) ≠ BINARY_PLACEHOLDER

/-- Scanning one well-behaved text record from a clean scanner state
records exactly its path and payload. -/
theorem scan_textRecord (s : ScanState) (p c : Str)
    (hs0 : s.st = 0) (hsin : s.inside = false) (hg : GoodTextFile p c) :
    scanLines (textRecordLines p (.ok c)) s =
      { s with writes := s.writes ++ [(p, text_payload (.ok c))],
               cur := none, buf := [], st := 0, inside := false,
               lineNum := s.lineNum + (textRecordLines p (.ok c)).length } := by
  obtain ⟨hne, hstr, hdd, hnl, hcr, hps, hnp⟩ := hg
  have hm1 : isMarkerLine (FILE_NAME_MARKER ++ p ++ ['\n']) = true := by
    rw [List.append_assoc]; exact isMarker_marker_lead _
  have hrel : pyStrip ((FILE_NAME_MARKER ++ p ++ ['\n']).drop FILE_NAME_MARKER.length)
      = p := by
    rw [List.append_assoc, List.drop_left, pyStrip_append_nl, hstr]
  have hf2 : isFenceLine (CODE_BLOCK_MARKER ++ langHint p ++ ['\n']) = true := by
    rw [List.append_assoc]; exact isFence_fence_lead _
  cases s with
  | mk cur0 buf0 st0 inside0 writes0 warns0 lineNum0 =>
  dsimp at hs0 hsin
  subst hs0; subst hsin
  have hstep1 := processLine_marker_set
    ⟨cur0, buf0, 0, false, writes0, warns0, lineNum0⟩
    (FILE_NAME_MARKER ++ p ++ ['\n'])
    (not_fence_of_marker _ hm1) rfl hm1
    (by rw [hrel]; exact hne) (by rw [hrel]; exact hdd)
  rw [hrel] at hstep1
  rw [textRecordLines, scanLines_cons, hstep1, scanLines_cons,
    processLine_fence_open _ _ hf2 rfl]
  rw [scanLines_append,
    scan_content_lines (splitLinesKeep (text_payload (.ok c))) _ rfl rfl hps]
  rw [show ([] : List Str) ++ splitLinesKeep (text_payload (Except.ok c))
        = splitLinesKeep (text_payload (Except.ok c)) from rfl]
  rw [scanLines_cons,
    processLine_fence_close_write _ _ p (isFence_fence_lead _) rfl rfl rfl
      (by show pyStrip ((splitLinesKeep (text_payload (Except.ok c))).flatten)
            ≠ BINARY_PLACEHOLDER
          rw [flatten_splitLinesKeep]; exact hnp)]
  rw [scanLines_cons, processLine_inert0 _ _ (by decide) rfl (by decide)]
  show ScanState.mk _ _ _ _ _ _ _ = _
  rw [flatten_splitLinesKeep]
  simp [textRecordLines]
  omega

/-- Scanning a sequence of well-behaved text records from a clean state
records exactly their paths and payloads, in order. -/
theorem scan_textRecords (files : List (Str × Str)) (s : ScanState)
    (hs0 : s.st = 0) (hsin : s.inside = false) (hscur : s.cur = none)
    (hsbuf : s.buf = [])
    (hall : ∀ pc ∈ files, GoodTextFile pc.1 pc.2) :
    scanLines ((files.map (fun pc => textRecordLines pc.1 (.ok pc.2))).flatten) s =
      { s with
          writes := s.writes ++ files.map (fun pc => (pc.1, text_payload (.ok pc.2))),
          lineNum := s.lineNum +
            ((files.map (fun pc => textRecordLines pc.1 (.ok pc.2))).flatten).length } := by
  induction files generalizing s with
  | nil =>
    cases s
    simp [scanLines]
  | cons pc rest ih =>
    rw [List.map_cons, List.flatten_cons, scanLines_append,
      scan_textRecord s pc.1 pc.2 hs0 hsin (hall pc (List.mem_cons_self pc rest))]
    rw [ih { s with
          writes := s.writes ++ [(pc.1, text_payload (.ok pc.2))],
          cur := none, buf := [], st := 0, inside := false,
          lineNum := s.lineNum + (textRecordLines pc.1 (.ok pc.2)).length }
        rfl rfl rfl rfl
        (fun pc' hpc' => hall pc' (List.mem_cons_of_mem pc hpc'))]
    cases s with
    | mk cur0 buf0 st0 inside0 writes0 warns0 lineNum0 =>
    dsimp at hscur hsbuf hs0 hsin
    subst hscur; subst hsbuf; subst hs0; subst hsin
    simp
    omega

/-! ## Claim C1: scanning the document header -/

theorem processLine_fence_open0 (s : ScanState) (l : Str)
    (hf : isFenceLine l = true) (hin : s.inside = false) (hs0 : s.st = 0) :
    processLine s l = { s with inside := true, lineNum := s.lineNum + 1 } := by
  cases s with
  | mk cur0 buf0 st0 inside0 writes0 warns0 lineNum0 =>
  dsimp at hin hs0
  subst hin; subst hs0
  rw [processLine_fence_open _ _ hf rfl]
  rfl

/-- Lines that neither open a fence nor carry a marker are skipped in
the marker-seeking state. -/
theorem scan_inert0 (ls : List Str) (s : ScanState) (hs0 : s.st = 0)
    (hin : ∀ l ∈ ls, isFenceLine l = false ∧ isMarkerLine l = false) :
    scanLines ls s = { s with lineNum := s.lineNum + ls.length } := by
  induction ls generalizing s with
  | nil => cases s; simp [scanLines]
  | cons l tl ih =>
    rw [scanLines_cons,
      processLine_inert0 s l (hin l (List.mem_cons_self l tl)).1 hs0
        (hin l (List.mem_cons_self l tl)).2,
      ih { s with lineNum := s.lineNum + 1 } hs0
        (fun l' hl' => hin l' (List.mem_cons_of_mem l hl'))]
    cases s
    simp
    omega

/-- The header and structure-section lines of the document, as produced
by `dump_repo` (the tree block is `"\n".join(tree_lines)` plus a final
newline, which yields one empty line when there are no tree lines). -/
def headerLines (name : Str) (tl : List Str) : List Str :=
  (chars "# Repository: " ++ name ++ ['\n']) :: ['\n'] ::
  (TREE_HEADER ++ ['\n']) :: (CODE_BLOCK_MARKER ++ ['\n']) ::
  ('/' :: (name ++ chars "/\n")) ::
  ((if tl.isEmpty then [['\n']] else tl.map (fun t => t ++ ['\n'])) ++
   [CODE_BLOCK_MARKER ++ ['\n'], ['\n'], CONTENT_HEADER ++ ['\n'], ['\n']])

/-- Scanning the header block from a clean state only advances the line
counter: every header line is inert or an (opened-then-closed) fence. -/
theorem scan_headerLines (name : Str) (tl : List Str) (s : ScanState)
    (hs0 : s.st = 0) (hsin : s.inside = false)
    (htl : ∀ t ∈ tl, ∃ q c r, t = q ++ c :: r ∧
      (∀ ch ∈ q, BarSpace ch) ∧ (c = '├' ∨ c = '└')) :
    scanLines (headerLines name tl) s =
      { s with lineNum := s.lineNum + (headerLines name tl).length } := by
  have hmid : ∀ l ∈ (if tl.isEmpty then [['\n']] else tl.map (fun t => t ++ ['\n'])),
      isFenceLine l = false ∧ isMarkerLine l = false := by
    intro l hl
    by_cases he : tl.isEmpty
    · rw [if_pos he] at hl
      rcases List.mem_singleton.mp hl with rfl
      exact ⟨by decide, by decide⟩
    · rw [if_neg he] at hl
      obtain ⟨t, ht, rfl⟩ := List.mem_map.mp hl
      obtain ⟨q, c, r, rfl, hq, hc⟩ := htl t ht
      rw [List.append_assoc, List.cons_append]
      exact tree_line_inert q c (r ++ ['\n']) hq hc
  cases s with
  | mk cur0 buf0 st0 inside0 writes0 warns0 lineNum0 =>
  dsimp at hs0 hsin
  subst hs0; subst hsin
  rw [headerLines, scanLines_cons,
    processLine_inert0 _ _ (title_not_fence name ['\n']) rfl (title_not_marker name ['\n'])]
  rw [scanLines_cons, processLine_inert0 _ _ (by decide) rfl (by decide)]
  rw [scanLines_cons, processLine_inert0 _ _ (by decide) rfl (by decide)]
  rw [scanLines_cons,
    processLine_fence_open0 _ _ (by rw [show CODE_BLOCK_MARKER ++ ['\n']
      = CODE_BLOCK_MARKER ++ ['\n'] from rfl]; exact isFence_fence_lead _) rfl rfl]
  rw [scanLines_cons, processLine_inert0 _ _
    (not_fence_of_head '/' _ (by decide) (by decide)) rfl
    (not_marker_of_head '/' _ (by decide))]
  rw [scanLines_append, scan_inert0 _ _ rfl hmid]
  rw [scanLines_cons, processLine_fence_close_other _ _ (isFence_fence_lead _) rfl
    (by exact fun h => by cases h)]
  rw [scanLines_cons, processLine_inert0 _ _ (by decide) rfl (by decide)]
  rw [scanLines_cons, processLine_inert0 _ _ (by decide) rfl (by decide)]
  rw [scanLines_cons, processLine_inert0 _ _ (by decide) rfl (by decide)]
  show ScanState.mk _ _ _ _ _ _ _ = _
  simp
  omega

/-! ## Claim C1: the rendered tree cannot disturb the scanner -/

/-- Every rendered tree line is an indentation of spaces and bars
followed by a branch connector. -/
theorem renderEntries_shape : ∀ (pre : Str) (t : List (Str × Entry)),
    (∀ ch ∈ pre, BarSpace ch) →
    ∀ l ∈ renderEntries pre t,
      ∃ q c r, l = q ++ c :: r ∧ (∀ ch ∈ q, BarSpace ch) ∧ (c = '├' ∨ c = '└')
  | pre, [], hpre => by
    intro l hl
    rw [renderEntries.eq_def] at hl
    cases hl
  | pre, (n, e) :: tl, hpre => by
    intro l hl
    rw [renderEntries.eq_def] at hl
    have hext : ∀ ch ∈ (if tl.isEmpty then chars "    " else chars "│   "),
        BarSpace ch := by
      intro c h'
      split at h'
      · rw [show chars "    " = [' ', ' ', ' ', ' '] from rfl] at h'
        rcases (by simpa using h' : c = ' ' ∨ c = ' ' ∨ c = ' ' ∨ c = ' ') with
          rfl | rfl | rfl | rfl <;> exact Or.inl rfl
      · rw [show chars "│   " = ['│', ' ', ' ', ' '] from rfl] at h'
        rcases (by simpa using h' : c = '│' ∨ c = ' ' ∨ c = ' ' ∨ c = ' ') with
          rfl | rfl | rfl | rfl
        · exact Or.inr rfl
        all_goals exact Or.inl rfl
    rcases List.mem_append.mp hl with hl1 | hl2
    · cases e with
      | file =>
        rcases List.mem_singleton.mp hl1 with rfl
        cases hb : tl.isEmpty
        · exact ⟨pre, '├', chars "── " ++ n,
            by rw [show connectorStr false = '├' :: chars "── " from rfl,
              List.append_assoc]; rfl, hpre, Or.inl rfl⟩
        · exact ⟨pre, '└', chars "── " ++ n,
            by rw [show connectorStr true = '└' :: chars "── " from rfl,
              List.append_assoc]; rfl, hpre, Or.inr rfl⟩
      | dir ch =>
        rcases List.mem_cons.mp hl1 with rfl | hl3
        · cases hb : tl.isEmpty
          · exact ⟨pre, '├', chars "── " ++ (n ++ ['/']),
              by rw [show connectorStr false = '├' :: chars "── " from rfl,
                List.append_assoc, List.append_assoc]; rfl, hpre, Or.inl rfl⟩
          · exact ⟨pre, '└', chars "── " ++ (n ++ ['/']),
              by rw [show connectorStr true = '└' :: chars "── " from rfl,
                List.append_assoc, List.append_assoc]; rfl, hpre, Or.inr rfl⟩
        · refine renderEntries_shape _ ch ?_ l hl3
          intro c hc
          rcases List.mem_append.mp hc with h' | h'
          · exact hpre c h'
          · exact hext c h'
    · exact renderEntries_shape pre tl hpre l hl2

mutual
/-- Character-level wellformedness of tree names: all names at all
levels satisfy the predicate. -/
def namesOkE (qb : Char → Bool) : Entry → Bool
  | .file => true
  | .dir ch => namesOkL qb ch

def namesOkL (qb : Char → Bool) : List (Str × Entry) → Bool
  | [] => true
  | (n, e) :: tl => n.all qb && namesOkE qb e && namesOkL qb tl
end

theorem namesOkL_cons_iff (qb : Char → Bool) (n : Str) (e : Entry)
    (tl : List (Str × Entry)) :
    namesOkL qb ((n, e) :: tl) = true ↔
      n.all qb = true ∧ namesOkE qb e = true ∧ namesOkL qb tl = true := by
  rw [namesOkL, Bool.and_eq_true, Bool.and_eq_true]
  tauto

/-- Every character of a rendered tree line is a structural character
or a character of some name, so any character predicate that holds for
the structural characters and all names holds for the whole line. -/
theorem renderEntries_chars (qb : Char → Bool)
    (hsp : qb ' ' = true) (hbar : qb '│' = true) (hmid : qb '├' = true)
    (hlast : qb '└' = true) (hdash : qb '─' = true) (hslash : qb '/' = true) :
    ∀ (pre : Str) (t : List (Str × Entry)),
      (∀ ch ∈ pre, qb ch = true) → namesOkL qb t = true →
      ∀ l ∈ renderEntries pre t, ∀ ch ∈ l, qb ch = true
  | pre, [], hpre, ht => by
    intro l hl
    rw [renderEntries.eq_def] at hl
    cases hl
  | pre, (n, e) :: tl, hpre, ht => by
    intro l hl
    rw [renderEntries.eq_def] at hl
    obtain ⟨hn, he, htl⟩ := (namesOkL_cons_iff qb n e tl).mp ht
    have hconn : ∀ b : Bool, ∀ ch ∈ connectorStr b, qb ch = true := by
      intro b c h'
      cases b
      · rw [show connectorStr false = ['├', '─', '─', ' '] from rfl] at h'
        rcases (by simpa using h' : c = '├' ∨ c = '─' ∨ c = '─' ∨ c = ' ') with
          rfl | rfl | rfl | rfl <;> assumption
      · rw [show connectorStr true = ['└', '─', '─', ' '] from rfl] at h'
        rcases (by simpa using h' : c = '└' ∨ c = '─' ∨ c = '─' ∨ c = ' ') with
          rfl | rfl | rfl | rfl <;> assumption
    have hnm : ∀ ch ∈ n, qb ch = true := by
      intro c h'
      exact (List.all_eq_true.mp hn) c h'
    have hext : ∀ ch ∈ (if tl.isEmpty then chars "    " else chars "│   "),
        qb ch = true := by
      intro c h'
      split at h'
      · rw [show chars "    " = [' ', ' ', ' ', ' '] from rfl] at h'
        rcases (by simpa using h' : c = ' ' ∨ c = ' ' ∨ c = ' ' ∨ c = ' ') with
          rfl | rfl | rfl | rfl <;> assumption
      · rw [show chars "│   " = ['│', ' ', ' ', ' '] from rfl] at h'
        rcases (by simpa using h' : c = '│' ∨ c = ' ' ∨ c = ' ' ∨ c = ' ') with
          rfl | rfl | rfl | rfl <;> assumption
    rcases List.mem_append.mp hl with hl1 | hl2
    · cases e with
      | file =>
        rcases List.mem_singleton.mp hl1 with rfl
        intro ch hch
        rcases List.mem_append.mp hch with h' | h'
        · rcases List.mem_append.mp h' with h'' | h''
          · exact hpre ch h''
          · exact hconn _ ch h''
        · exact hnm ch h'
      | dir ch =>
        rcases List.mem_cons.mp hl1 with rfl | hl3
        · intro c hc
          rcases List.mem_append.mp hc with h' | h'
          · rcases List.mem_append.mp h' with h'' | h''
            · rcases List.mem_append.mp h'' with h3 | h3
              · exact hpre c h3
              · exact hconn _ c h3
            · exact hnm c h''
          · rcases List.mem_singleton.mp h' with rfl
            exact hslash
        · exact renderEntries_chars qb hsp hbar hmid hlast hdash hslash _ ch
            (fun c hc => by
              rcases List.mem_append.mp hc with h' | h'
              · exact hpre c h'
              · exact hext c h')
            (show namesOkE qb (.dir ch) = true from he) l hl3
    · exact renderEntries_chars qb hsp hbar hmid hlast hdash hslash pre tl hpre htl
        l hl2

theorem namesOkL_append (qb : Char → Bool) (a b : List (Str × Entry)) :
    namesOkL qb (a ++ b) = (namesOkL qb a && namesOkL qb b) := by
  induction a with
  | nil => simp [namesOkL]
  | cons hd tl ih =>
    obtain ⟨n, e⟩ := hd
    rw [List.cons_append, namesOkL, ih, namesOkL]
    simp [Bool.and_assoc]

theorem namesOkE_of_lookup (qb : Char → Bool) (l : List (Str × Entry)) (k : Str)
    (e : Entry) (hl : namesOkL qb l = true) (h : List.lookup k l = some e) :
    namesOkE qb e = true := by
  induction l with
  | nil => cases h
  | cons hd tl ih =>
    obtain ⟨k', v'⟩ := hd
    obtain ⟨-, hv, htl⟩ := (namesOkL_cons_iff qb k' v' tl).mp hl
    by_cases hk : k = k'
    · subst hk
      simp [List.lookup] at h
      exact h ▸ hv
    · have hb : (k == k') = false := beq_eq_false_iff_ne.mpr hk
      rw [List.lookup] at h
      simp only [hb] at h
      exact ih htl h

theorem namesOkL_assignE (qb : Char → Bool) (l : List (Str × Entry)) (k : Str)
    (v : Entry) (hl : namesOkL qb l = true) (hk : k.all qb = true)
    (hv : namesOkE qb v = true) : namesOkL qb (assignE l k v) = true := by
  induction l with
  | nil =>
    rw [assignE, namesOkL_cons_iff]
    exact ⟨hk, hv, rfl⟩
  | cons hd tl ih =>
    obtain ⟨k', v'⟩ := hd
    obtain ⟨hk', hv', htl⟩ := (namesOkL_cons_iff qb k' v' tl).mp hl
    by_cases hkk : k' = k
    · subst hkk
      rw [assignE, if_pos rfl, namesOkL_cons_iff]
      exact ⟨hk', hv, htl⟩
    · rw [assignE, if_neg hkk, namesOkL_cons_iff]
      exact ⟨hk', hv', ih htl⟩

theorem namesOkL_insertParts (qb : Char → Bool) :
    ∀ (parts : List Str) (lvl : List (Str × Entry)),
    namesOkL qb lvl = true → (∀ part ∈ parts, part.all qb = true) →
    namesOkL qb (insertParts lvl parts).1 = true
  | [], lvl, hl, _ => hl
  | [part], lvl, hl, hp => by
    cases hlk : List.lookup part lvl with
    | none =>
      rw [show insertParts lvl [part] = (assignE lvl part .file, []) by
        rw [insertParts, hlk]]
      exact namesOkL_assignE qb lvl part .file hl
        (hp part (List.mem_cons_self part [])) rfl
    | some e =>
      cases e with
      | file =>
        rw [show insertParts lvl [part] = (assignE lvl part .file, []) by
          rw [insertParts, hlk]]
        exact namesOkL_assignE qb lvl part .file hl
          (hp part (List.mem_cons_self part [])) rfl
      | dir ch =>
        rw [show insertParts lvl [part] = (lvl, [.fileConflictsDir part]) by
          rw [insertParts, hlk]]
        exact hl
  | part :: r :: rs, lvl, hl, hp => by
    have hsub : ∀ pt ∈ r :: rs, pt.all qb = true :=
      fun pt hpt => hp pt (List.mem_cons_of_mem part hpt)
    have hpart : part.all qb = true := hp part (List.mem_cons_self part _)
    cases hlk : List.lookup part lvl with
    | none =>
      rw [show insertParts lvl (part :: r :: rs)
            = (lvl ++ [(part, .dir (insertParts [] (r :: rs)).1)],
               (insertParts [] (r :: rs)).2) by
        simp only [insertParts, hlk]]
      rw [namesOkL_append, Bool.and_eq_true]
      refine ⟨hl, ?_⟩
      rw [namesOkL_cons_iff]
      exact ⟨hpart, namesOkL_insertParts qb (r :: rs) [] rfl hsub, rfl⟩
    | some e =>
      cases e with
      | file =>
        rw [show insertParts lvl (part :: r :: rs)
              = (assignE lvl part (.dir (insertParts [] (r :: rs)).1),
                 .dirOverwritesFile part :: (insertParts [] (r :: rs)).2) by
          simp only [insertParts, hlk]]
        exact namesOkL_assignE qb lvl part _ hl hpart
          (namesOkL_insertParts qb (r :: rs) [] rfl hsub)
      | dir ch =>
        rw [show insertParts lvl (part :: r :: rs)
              = (assignE lvl part (.dir (insertParts ch (r :: rs)).1),
                 (insertParts ch (r :: rs)).2) by
          simp only [insertParts, hlk]]
        exact namesOkL_assignE qb lvl part _ hl hpart
          (namesOkL_insertParts qb (r :: rs) ch
            (namesOkE_of_lookup qb lvl part (.dir ch) hl hlk) hsub)

theorem namesOkL_build_tree (qb : Char → Bool) (files : List (List Str))
    (hf : ∀ parts ∈ files, ∀ part ∈ parts, part.all qb = true) :
    namesOkL qb (build_tree files).1 = true := by
  suffices h : ∀ acc : List (Str × Entry) × List TreeDiag, namesOkL qb acc.1 = true →
      namesOkL qb (files.foldl
        (fun acc parts =>
          let r := insertParts acc.1 parts
          (r.1, acc.2 ++ r.2)) acc).1 = true by
    exact h ([], []) rfl
  induction files with
  | nil => exact fun acc h => h
  | cons f fs ih =>
    intro acc hacc
    exact ih (fun parts hparts => hf parts (List.mem_cons_of_mem f hparts)) _
      (namesOkL_insertParts qb f acc.1 hacc
        (hf f (List.mem_cons_self f fs)))

theorem namesOkL_insortEntry (qb : Char → Bool) (x : Str × Entry)
    (l : List (Str × Entry)) (hx1 : x.1.all qb = true) (hx2 : namesOkE qb x.2 = true)
    (hl : namesOkL qb l = true) : namesOkL qb (insortEntry x l) = true := by
  induction l with
  | nil =>
    rw [insortEntry, show ([x] : List (Str × Entry)) = (x.1, x.2) :: [] by rfl,
      namesOkL_cons_iff]
    exact ⟨hx1, hx2, rfl⟩
  | cons y tl ih =>
    obtain ⟨hy1, hy2, htl⟩ := (namesOkL_cons_iff qb y.1 y.2 tl).mp hl
    rw [insortEntry]
    by_cases hle : entryLE x y = true
    · rw [if_pos hle,
        show x :: y :: tl = (x.1, x.2) :: (y.1, y.2) :: tl by rfl,
        namesOkL_cons_iff, namesOkL_cons_iff]
      exact ⟨hx1, hx2, hy1, hy2, htl⟩
    · rw [if_neg hle, show (y :: insortEntry x tl) = (y.1, y.2) :: insortEntry x tl by rfl,
        namesOkL_cons_iff]
      exact ⟨hy1, hy2, ih htl⟩

theorem namesOkL_sortEntries (qb : Char → Bool) (l : List (Str × Entry))
    (hl : namesOkL qb l = true) : namesOkL qb (sortEntries l) = true := by
  induction l with
  | nil => exact hl
  | cons x tl ih =>
    obtain ⟨hx1, hx2, htl⟩ := (namesOkL_cons_iff qb x.1 x.2 tl).mp hl
    rw [sortEntries]
    exact namesOkL_insortEntry qb x (sortEntries tl) hx1 hx2 (ih htl)

mutual
theorem namesOkE_sortAll (qb : Char → Bool) :
    ∀ e : Entry, namesOkE qb e = true → namesOkE qb (Entry.sortAll e) = true
  | .file, h => h
  | .dir ch, h => by
    rw [Entry.sortAll]
    exact namesOkL_sortEntries qb _ (namesOkL_sortAllChildren qb ch h)

theorem namesOkL_sortAllChildren (qb : Char → Bool) :
    ∀ l : List (Str × Entry), namesOkL qb l = true →
      namesOkL qb (sortAllChildren l) = true
  | [], h => h
  | (n, e) :: tl, h => by
    obtain ⟨h1, h2, h3⟩ := (namesOkL_cons_iff qb n e tl).mp h
    rw [sortAllChildren, namesOkL_cons_iff]
    exact ⟨h1, namesOkE_sortAll qb e h2, namesOkL_sortAllChildren qb tl h3⟩
end

theorem namesOkL_sortTree (qb : Char → Bool) (t : List (Str × Entry))
    (ht : namesOkL qb t = true) : namesOkL qb (sortTree t) = true :=
  namesOkL_sortEntries qb _ (namesOkL_sortAllChildren qb t ht)

theorem mem_intersperse_of_mem (sep : Str) :
    ∀ (xs : List Str) (x : Str), x ∈ xs → x ∈ xs.intersperse sep
  | [], x, h => absurd h (List.not_mem_nil x)
  | [a], x, h => h
  | a :: b :: tl, x, h => by
    rw [show (a :: b :: tl).intersperse sep = a :: sep :: (b :: tl).intersperse sep
      from rfl]
    rcases List.mem_cons.mp h with rfl | h'
    · exact List.mem_cons_self _ _
    · exact List.mem_cons_of_mem _ (List.mem_cons_of_mem _
        (mem_intersperse_of_mem sep (b :: tl) x h'))

/-- Every path segment's characters are characters of the path. -/
theorem pathParts_all (qb : Char → Bool) (p : Str)
    (hp : ∀ ch ∈ p, qb ch = true) :
    ∀ part ∈ pathParts p, part.all qb = true := by
  intro part hpart
  rw [List.all_eq_true]
  intro ch hch
  apply hp
  rw [← List.intercalate_splitOn p '/']
  rw [List.intercalate]
  exact List.mem_flatten.mpr
    ⟨part, mem_intersperse_of_mem ['/'] (p.splitOn '/') part hpart, hch⟩

/-! ## Claim C1: the document as a list of lines -/

theorem flatten_flatten (L : List (List Str)) :
    L.flatten.flatten = (L.map List.flatten).flatten := by
  induction L with
  | nil => rfl
  | cons a tl ih => simp [ih]

theorem map_nl_flatten_ne : ∀ (t : Str) (ts : List Str),
    ((t :: ts).map (fun l => l ++ ['\n'])).flatten =
      List.intercalate ['\n'] (t :: ts) ++ ['\n']
  | t, [] => by simp [List.intercalate, List.intersperse]
  | t, t2 :: ts2 => by
    have hic : List.intercalate ['\n'] (t :: t2 :: ts2)
        = t ++ ('\n' :: List.intercalate ['\n'] (t2 :: ts2)) := by
      simp [List.intercalate, List.intersperse]
    rw [List.map_cons, List.flatten_cons, map_nl_flatten_ne t2 ts2, hic]
    simp

theorem flatten_headerLines_append (name : Str) (tl : List Str) (X : Str) :
    (headerLines name tl).flatten ++ X =
      chars "# Repository: " ++ name ++ chars "\n\n" ++
      (TREE_HEADER ++ '\n' ::
      (CODE_BLOCK_MARKER ++ '\n' ::
      ('/' :: name ++ chars "/\n" ++
      (List.intercalate ['\n'] tl ++
      ('\n' :: CODE_BLOCK_MARKER ++ chars "\n\n" ++
      (CONTENT_HEADER ++ chars "\n\n" ++ X)))))) := by
  rw [headerLines]
  cases tl with
  | nil =>
    simp [List.intercalate, List.intersperse,
      show chars "\n\n" = ['\n', '\n'] from rfl,
      show chars "/\n" = ['/', '\n'] from rfl]
  | cons t ts =>
    rw [show (t :: ts).isEmpty = false from rfl,
      show (if (false = true) then [['\n']] else (t :: ts).map (fun l => l ++ ['\n']))
          = (t :: ts).map (fun l => l ++ ['\n']) from rfl]
    simp only [List.flatten_cons, List.flatten_append, map_nl_flatten_ne]
    simp [show chars "\n\n" = ['\n', '\n'] from rfl,
      show chars "/\n" = ['/', '\n'] from rfl]

/-- The full list of document lines for an all-text dump. -/
def dumpLines (name : Str) (files : List (Str × Str)) : List Str :=
  headerLines name
    (print_tree (build_tree (files.map (fun pc => pathParts pc.1))).1 (chars "    ")) ++
  (files.map (fun pc => textRecordLines pc.1 (.ok pc.2))).flatten

/-- `dump_repo` on text-only files produces exactly the concatenation
of those lines. -/
theorem dump_repo_all_text (name : Str) (files : List (Str × Str)) :
    dump_repo name (files.map (fun pc => ⟨pc.1, false, .ok pc.2⟩)) =
      (dumpLines name files).flatten := by
  have h1 : ((files.map (fun pc => (⟨pc.1, false, .ok pc.2⟩ : SrcFile))).filter
      (fun f => !f.isBin)) = files.map (fun pc => ⟨pc.1, false, .ok pc.2⟩) := by
    rw [List.filter_eq_self]
    intro a ha
    obtain ⟨pc, -, rfl⟩ := List.mem_map.mp ha
    rfl
  have h2 : ((files.map (fun pc => (⟨pc.1, false, .ok pc.2⟩ : SrcFile))).filter
      (fun f => f.isBin)) = [] := by
    rw [List.filter_eq_nil_iff]
    intro a ha
    obtain ⟨pc, -, rfl⟩ := List.mem_map.mp ha
    exact fun h => by cases h
  have h3 : ((files.map (fun pc => (⟨pc.1, false, .ok pc.2⟩ : SrcFile))).map
        (fun f => text_record f.path f.read))
      = files.map (fun pc => text_record pc.1 (.ok pc.2)) := by
    rw [List.map_map]; rfl
  have h4 : ((files.map (fun pc => (⟨pc.1, false, .ok pc.2⟩ : SrcFile))).map
        (fun f => pathParts f.path))
      = files.map (fun pc => pathParts pc.1) := by
    rw [List.map_map]; rfl
  have h5 : ((files.map (fun pc => textRecordLines pc.1 (.ok pc.2))).flatten).flatten
      = (files.map (fun pc => text_record pc.1 (.ok pc.2))).flatten := by
    rw [flatten_flatten, List.map_map]
    congr 1
    exact List.map_congr_left (fun pc _ => flatten_textRecordLines pc.1 (.ok pc.2))
  rw [dump_repo, h1, h2, h3, h4, dumpLines, List.flatten_append, h5,
    flatten_headerLines_append]
  simp

/-! ## Claim C1: hygiene of every document line -/

theorem basenameOf_subset (p : Str) : ∀ ch ∈ basenameOf p, ch ∈ p := by
  intro ch hch
  unfold basenameOf at hch
  rw [List.mem_reverse] at hch
  have := (List.takeWhile_prefix (l := p.reverse)
    (fun c => c ≠ '/')).sublist.subset hch
  exact List.mem_reverse.mp this

theorem langHint_subset (p : Str) : ∀ ch ∈ langHint p, ch ∈ p := by
  intro ch hch
  have h1 : ch ∈ pySuffix p := List.drop_subset _ _ hch
  apply basenameOf_subset p
  unfold pySuffix at h1
  simp only [] at h1
  rcases hfi : (basenameOf p).reverse.findIdx? (fun c => c = '.') with - | rj
  · rw [hfi] at h1
    simp only [] at h1
    cases h1
  · rw [hfi] at h1
    simp only [] at h1
    by_cases hcond : 0 < (basenameOf p).length - 1 - rj ∧
        (basenameOf p).length - 1 - rj < (basenameOf p).length - 1
    · rw [if_pos hcond] at h1
      exact List.drop_subset _ _ h1
    · rw [if_neg hcond] at h1
      cases h1

theorem text_payload_noCR (c : Str) : '\r' ∉ text_payload (.ok c) := by
  by_cases h : normalizeNewlines c ≠ [] ∧ ¬ endsNL (normalizeNewlines c)
  · simp only [text_payload, if_pos h]
    intro hmem
    rcases List.mem_append.mp hmem with h' | h'
    · exact noCR_normalizeNewlines c h'
    · exact absurd (List.mem_singleton.mp h') (by decide)
  · simp only [text_payload, if_neg h, List.append_nil]
    exact noCR_normalizeNewlines c

theorem text_payload_endsNL (c : Str) (hne : text_payload (.ok c) ≠ []) :
    endsNL (text_payload (.ok c)) = true := by
  by_cases h : normalizeNewlines c ≠ [] ∧ ¬ endsNL (normalizeNewlines c)
  · simp only [text_payload, if_pos h]
    simp [endsNL, List.getLast?_concat]
  · simp only [text_payload, if_neg h, List.append_nil] at hne ⊢
    push_neg at h
    exact h hne

/-- The character predicate for document hygiene: no newline, no
carriage return. -/
def lineSafeChar (c : Char) : Bool := !(c == '\n') && !(c == '\r')

/-- A terminated line built from a safe body is proper and CR-free. -/
theorem goodLine_of (m : Str) (hnl : '\n' ∉ m) (hcr : '\r' ∉ m) :
    ProperLine (m ++ ['\n']) ∧ '\r' ∉ m ++ ['\n'] := by
  refine ⟨⟨m, rfl, hnl⟩, ?_⟩
  intro hmem
  rcases List.mem_append.mp hmem with h | h
  · exact hcr h
  · exact absurd (List.mem_singleton.mp h) (by decide)

/-- Every line of the dumped document is a proper, CR-free line. -/
theorem goodLines_dumpLines (name : Str) (files : List (Str × Str))
    (hnameNL : '\n' ∉ name) (hnameCR : '\r' ∉ name)
    (hall : ∀ pc ∈ files, GoodTextFile pc.1 pc.2) :
    ∀ l ∈ dumpLines name files, ProperLine l ∧ '\r' ∉ l := by
  have hqparts : ∀ parts ∈ files.map (fun pc => pathParts pc.1),
      ∀ part ∈ parts, part.all lineSafeChar = true := by
    intro parts hparts part hpart
    obtain ⟨pc, hpc, rfl⟩ := List.mem_map.mp hparts
    refine pathParts_all lineSafeChar pc.1 ?_ part hpart
    intro ch hch
    have h1 : ch ≠ '\n' := fun he => (hall pc hpc).noNL (he ▸ hch)
    have h2 : ch ≠ '\r' := fun he => (hall pc hpc).noCR (he ▸ hch)
    rw [lineSafeChar, Bool.and_eq_true, Bool.not_eq_true', Bool.not_eq_true']
    exact ⟨beq_eq_false_iff_ne.mpr h1, beq_eq_false_iff_ne.mpr h2⟩
  have hpre4 : ∀ ch ∈ chars "    ", lineSafeChar ch = true := by
    intro ch hch
    rw [show chars "    " = [' ', ' ', ' ', ' '] from rfl] at hch
    rcases (by simpa using hch : ch = ' ' ∨ ch = ' ' ∨ ch = ' ' ∨ ch = ' ') with
      rfl | rfl | rfl | rfl <;> decide
  have htreeChars : ∀ t ∈ print_tree
      (build_tree (files.map (fun pc => pathParts pc.1))).1 (chars "    "),
      ∀ ch ∈ t, lineSafeChar ch = true := by
    intro t ht
    exact renderEntries_chars lineSafeChar (by decide) (by decide) (by decide)
      (by decide) (by decide) (by decide) (chars "    ") _ hpre4
      (namesOkL_sortTree _ _ (namesOkL_build_tree _ _ hqparts)) t ht
  intro l hl
  rw [dumpLines] at hl
  rcases List.mem_append.mp hl with hl1 | hl2
  · rw [headerLines] at hl1
    rcases List.mem_cons.mp hl1 with rfl | hl1
    · apply goodLine_of <;> intro h <;> rcases List.mem_append.mp h with h' | h'
      · exact absurd h' (by decide)
      · exact hnameNL h'
      · exact absurd h' (by decide)
      · exact hnameCR h'
    rcases List.mem_cons.mp hl1 with rfl | hl1
    · exact ⟨⟨[], rfl, by simp⟩, by decide⟩
    rcases List.mem_cons.mp hl1 with rfl | hl1
    · exact ⟨⟨TREE_HEADER, rfl, by decide⟩, by decide⟩
    rcases List.mem_cons.mp hl1 with rfl | hl1
    · exact ⟨⟨CODE_BLOCK_MARKER, rfl, by decide⟩, by decide⟩
    rcases List.mem_cons.mp hl1 with rfl | hl1
    · have heq : ('/' :: (name ++ chars "/\n"))
          = ('/' :: (name ++ ['/'])) ++ ['\n'] := by
        simp [show chars "/\n" = ['/', '\n'] from rfl]
      rw [heq]
      apply goodLine_of <;> intro h <;> rcases List.mem_cons.mp h with h' | h'
      · exact absurd h' (by decide)
      · rcases List.mem_append.mp h' with h'' | h''
        · exact hnameNL h''
        · exact absurd (List.mem_singleton.mp h'') (by decide)
      · exact absurd h' (by decide)
      · rcases List.mem_append.mp h' with h'' | h''
        · exact hnameCR h''
        · exact absurd (List.mem_singleton.mp h'') (by decide)
    rcases List.mem_append.mp hl1 with hmid | hclose
    · by_cases he : (print_tree
          (build_tree (files.map (fun pc => pathParts pc.1))).1 (chars "    ")).isEmpty
      · rw [if_pos he] at hmid
        rcases List.mem_singleton.mp hmid with rfl
        exact ⟨⟨[], rfl, by simp⟩, by decide⟩
      · rw [if_neg he] at hmid
        obtain ⟨t, ht, rfl⟩ := List.mem_map.mp hmid
        apply goodLine_of <;> intro h
        · exact absurd (htreeChars t ht '\n' h) (by decide)
        · exact absurd (htreeChars t ht '\r' h) (by decide)
    rcases List.mem_cons.mp hclose with rfl | hclose
    · exact ⟨⟨CODE_BLOCK_MARKER, rfl, by decide⟩, by decide⟩
    rcases List.mem_cons.mp hclose with rfl | hclose
    · exact ⟨⟨[], rfl, by simp⟩, by decide⟩
    rcases List.mem_cons.mp hclose with rfl | hclose
    · exact ⟨⟨CONTENT_HEADER, rfl, by decide⟩, by decide⟩
    rcases List.mem_singleton.mp hclose with rfl
    exact ⟨⟨[], rfl, by simp⟩, by decide⟩
  · obtain ⟨ls, hls, hlin⟩ := List.mem_flatten.mp hl2
    obtain ⟨pc, hpc, rfl⟩ := List.mem_map.mp hls
    have hg := hall pc hpc
    rw [textRecordLines] at hlin
    rcases List.mem_cons.mp hlin with rfl | hlin
    · apply goodLine_of <;> intro h <;> rcases List.mem_append.mp h with h' | h'
      · exact absurd h' (by decide)
      · exact hg.noNL h'
      · exact absurd h' (by decide)
      · exact hg.noCR h'
    rcases List.mem_cons.mp hlin with rfl | hlin
    · apply goodLine_of <;> intro h <;> rcases List.mem_append.mp h with h' | h'
      · exact absurd h' (by decide)
      · exact hg.noNL (langHint_subset pc.1 _ h')
      · exact absurd h' (by decide)
      · exact hg.noCR (langHint_subset pc.1 _ h')
    rcases List.mem_append.mp hlin with hpay | hrest
    · constructor
      · refine splitLinesKeep_proper _ ?_ l hpay
        refine text_payload_endsNL pc.2 ?_
        intro h0
        rw [h0] at hpay
        cases hpay
      · intro hcr'
        refine text_payload_noCR pc.2 ?_
        rw [← flatten_splitLinesKeep (text_payload (.ok pc.2))]
        exact List.mem_flatten.mpr ⟨l, hpay, hcr'⟩
    rcases List.mem_cons.mp hrest with rfl | hrest
    · exact ⟨⟨CODE_BLOCK_MARKER, rfl, by decide⟩, by decide⟩
    rcases List.mem_singleton.mp hrest with rfl
    exact ⟨⟨[], rfl, by simp⟩, by decide⟩

/-! ## Claim C1: the round trip -/

theorem finalizeScan_done (fin : ScanState) (hst : fin.st = 0) (hcu : fin.cur = none) :
    finalizeScan fin = fin := by
  unfold finalizeScan
  rw [if_neg (show ¬ fin.st ≠ 0 from fun h => h hst)]
  simp only [hcu]

/-- Claim C1 (amended): decoding the document produced by encoding a
tree of text files reproduces every file's relative path and content —
modulo CR/CRLF-to-LF normalisation and the guaranteed trailing newline
on nonempty content — provided each path is nonempty, strip-clean, free
of newlines, carriage returns and the `..` substring, and each
normalised payload neither contains a line that whitespace-strips to a
fence-token lead nor whitespace-strips to the binary placeholder. -/
theorem c1_round_trip (name : Str) (files : List (Str × Str))
    (hnameNL : '\n' ∉ name) (hnameCR : '\r' ∉ name)
    (hall : ∀ pc ∈ files, GoodTextFile pc.1 pc.2) :
    (restore_repo (dump_repo name
        (files.map (fun pc => ⟨pc.1, false, .ok pc.2⟩)))).writes
      = files.map (fun pc => (pc.1, text_payload (.ok pc.2))) := by
  rw [dump_repo_all_text]
  have hgood := goodLines_dumpLines name files hnameNL hnameCR hall
  have hnocr : '\r' ∉ (dumpLines name files).flatten := by
    intro h
    obtain ⟨l, hlmem, hch⟩ := List.mem_flatten.mp h
    exact (hgood l hlmem).2 hch
  have hread : readLines ((dumpLines name files).flatten) = dumpLines name files := by
    rw [readLines, normalizeNewlines_eq_self _ hnocr,
      splitLinesKeep_flatten_proper _ (fun l hl => (hgood l hl).1)]
  rw [show restore_repo ((dumpLines name files).flatten)
        = finalizeScan (scanLines (readLines ((dumpLines name files).flatten)) initState)
      from rfl, hread, dumpLines, scanLines_append]
  have htl : ∀ t ∈ print_tree
      (build_tree (files.map (fun pc => pathParts pc.1))).1 (chars "    "),
      ∃ q c r, t = q ++ c :: r ∧ (∀ ch ∈ q, BarSpace ch) ∧ (c = '├' ∨ c = '└') := by
    intro t ht
    refine renderEntries_shape (chars "    ") _ ?_ t ht
    intro ch hch
    rw [show chars "    " = [' ', ' ', ' ', ' '] from rfl] at hch
    rcases (by simpa using hch : ch = ' ' ∨ ch = ' ' ∨ ch = ' ' ∨ ch = ' ') with
      rfl | rfl | rfl | rfl <;> exact Or.inl rfl
  rw [scan_headerLines name _ initState rfl rfl htl]
  rw [scan_textRecords files _ rfl rfl rfl rfl hall]
  rw [finalizeScan_done _ rfl rfl]
  simp
  rfl

/-- Counterexample to C1 as stated: a text file whose content is
exactly the binary placeholder line is already LF-normal, yet decoding
the encoded tree writes nothing for it — the decoder mistakes the
payload for a binary placeholder. -/
theorem c1_counterexample :
    (restore_repo (dump_repo (chars "r")
        [⟨chars "a.txt", false, .ok (chars "[Binary file content skipped]\n")⟩])).writes
      = [] ∧
    normalizeNewlines (chars "[Binary file content skipped]\n")
      = chars "[Binary file content skipped]\n" := by
  constructor
  · have hpt : print_tree (build_tree (List.map (fun f => pathParts f.path)
        [(⟨chars "a.txt", false, .ok (chars "[Binary file content skipped]\n")⟩ : SrcFile)])).1
        (chars "    ") = [chars "    └── a.txt"] := by
      simp [print_tree, build_tree, insertParts, pathParts, sortTree, sortAllChildren,
        Entry.sortAll, sortEntries, insortEntry, renderEntries, connectorStr, chars,
        assignE]
    simp only [dump_repo]
    rw [hpt]
    decide
  · rfl

/-- Witness for C1 at a concrete two-file tree (one file without a
final newline, one with a CRLF): the round trip reproduces both paths
and the LF-normalised, newline-terminated contents. -/
theorem c1_witness :
    (restore_repo (dump_repo (chars "r")
        (([(chars "a.txt", chars "hi"), (chars "sub/deep.py", chars "x\r\ny\n")]).map
          (fun pc => ⟨pc.1, false, .ok pc.2⟩)))).writes
      = [(chars "a.txt", chars "hi\n"),
         (chars "sub/deep.py", chars "x\ny\n")] := by
  have h := c1_round_trip (chars "r")
    [(chars "a.txt", chars "hi"), (chars "sub/deep.py", chars "x\r\ny\n")]
    (by decide) (by decide) ?hall
  case hall =>
    intro pc hpc
    rcases List.mem_cons.mp hpc with rfl | hpc
    · exact ⟨by decide, by decide, by decide, by decide, by decide, by decide, by decide⟩
    · rcases List.mem_singleton.mp hpc with rfl
      exact ⟨by decide, by decide, by decide, by decide, by decide, by decide, by decide⟩
  rw [h]
  rfl
